import Mathlib

/-!
Verification of the HIBAG HLA-imputation C++ kernel (`src/LibHLA.cpp`) against its
natural-language specification.

The development is a shallow embedding: packed bit planes (`UINT8 PackedHaplo[]`,
`PackedSNP1/2`, `PackedMissing`) become arbitrary-precision naturals whose low
`Num_SNP` bits are meaningful (the C code masks every word-parallel operation to
the active length, so the word size is immaterial); `double` arithmetic is
idealized as exact rationals (`ℚ`); the injected uniform random source and the
data-dependent EM/accuracy evaluations are oracle parameters; C loops become
structural recursions over explicit fuel / loop counters.
-/

namespace LibHLA

/-! ## Constants from LibHLA.cpp

`HIBAG_MAXNUM_SNP_IN_CLASSIFIER` is declared in `LibHLA.h` (not part of the
sources here); it is the fixed classifier marker capacity, 128 in the released
package.  All theorems below only use that it is positive. -/

/-- Classifier marker capacity, from the header `LibHLA.h` (modelled: the header
is not in the sources; the spec calls it the fixed "reserved-bit marker
capacity"). -/
def HIBAG_MAXNUM_SNP_IN_CLASSIFIER : ℕ := 128

/-- `int HLA_LIB::EM_MaxNum_Iterations = 500` — the max number of EM iterations. -/
def EM_MaxNum_Iterations : ℕ := 500

/-- `double HLA_LIB::EM_FuncRelTol = sqrt(DBL_EPSILON)`; `DBL_EPSILON = 2⁻⁵²`,
so the value is exactly `2⁻²⁶`. -/
def EM_FuncRelTol : ℚ := 1 / 2 ^ 26

/-- `EM_INIT_VAL_FRAC = 0.001` — additive smoothing for the EM warm start. -/
def EM_INIT_VAL_FRAC : ℚ := 1 / 1000

/-- `MIN_RARE_FREQ = 1e-5` — minimum rare frequency to store haplotypes. -/
def MIN_RARE_FREQ : ℚ := 1 / 100000

/-- `FRACTION_HAPLO = 1.0/10`. -/
def FRACTION_HAPLO : ℚ := 1 / 10

/-- `STOP_RELTOL_LOGLIK_ADDSNP = 0.001` — reltol for the stopping rule of
adding a new SNP marker. -/
def STOP_RELTOL_LOGLIK_ADDSNP : ℚ := 1 / 1000

/-- `PRUNE_RELTOL_LOGLIK = 0.1` — reltol for erasing a SNP marker when
`prune = TRUE`. -/
def PRUNE_RELTOL_LOGLIK : ℚ := 1 / 10

/-- R's `NA_INTEGER` sentinel (INT_MIN), used for "no call". -/
def NA_INTEGER : ℤ := -2147483648

/-! ## Bit codec: popcount -/

/-- Population count of a natural number viewed as a bit string; the portable
popcount used by `TGenotype::_HamDist` computes exactly this per machine word. -/
def popCount (n : ℕ) : ℕ :=
  if h : n = 0 then 0 else n % 2 + popCount (n / 2)
decreasing_by exact Nat.div_lt_self (Nat.pos_of_ne_zero h) (by omega)

theorem popCount_zero : popCount 0 = 0 := by
  rw [popCount]
  simp

theorem popCount_eq (n : ℕ) : popCount n = n % 2 + popCount (n / 2) := by
  rcases Nat.eq_zero_or_pos n with h | h
  · subst h; simp [popCount_zero]
  · have h' : n ≠ 0 := by omega
    rw [popCount]
    simp [h']

/-! ## Genotype and haplotype bit-plane representation

`TGenotype` packs three parallel bit planes per sample.  A haplotype's packed
bit vector `UINT8 PackedHaplo[]` is embedded as a plain `ℕ` where it appears as
a bare bit string (the Hamming-distance kernel), and as the `Packed` field of
`THaplotype` where the frequency fields matter. -/

/-- `TGenotype`: three packed bit planes plus the bootstrap replication count. -/
structure TGenotype where
  PackedSNP1 : ℕ
  PackedSNP2 : ℕ
  PackedMissing : ℕ
  BootstrapCount : ℤ

/-- `THaplotype`: packed allele bit vector plus current / previous frequency. -/
structure THaplotype where
  Packed : ℕ
  Frequency : ℚ
  OldFreq : ℚ
deriving DecidableEq

/-- `THaplotype::GetAllele(idx)`: `(PackedHaplo[idx >> 3] >> (idx & 0x07)) & 0x01`,
i.e. bit `idx` of the packed vector. -/
def GetAllele (packed : ℕ) (idx : ℕ) : ℕ :=
  (packed >>> idx) &&& 1

/-- `TGenotype::GetSNP(idx)`: the called allele count at locus `idx`, or `-1`
when the missing-plane bit is clear. -/
def TGenotype.GetSNP (G : TGenotype) (idx : ℕ) : ℤ :=
  if (G.PackedMissing >>> idx) &&& 1 = 1 then
    ((G.PackedSNP1 >>> idx) &&& 1 : ℕ) + ((G.PackedSNP2 >>> idx) &&& 1 : ℕ)
  else -1

/-- Mask selecting the low `len` bits; the portable `_HamDist` loop applies
`MASK &= ~(UTYPE(-1) << n)` to its last partial word, which over the whole bit
string amounts to this mask. -/
def lowBits (len : ℕ) : ℕ := 2 ^ len - 1

/-- `TGenotype::_HamDist(Length, H1, H2)` (scalar path): per word
`MASK = ((H1 ^ S2) | (H2 ^ S1)) & M` truncated to the active length, and the
result is `popcount((H1 ^ S1) & MASK) + popcount((H2 ^ S2) & MASK)` summed over
the words, i.e. the following over the whole bit strings. -/
def hamDist (len : ℕ) (H1 H2 : ℕ) (G : TGenotype) : ℕ :=
  let MASK := ((H1 ^^^ G.PackedSNP2) ||| (H2 ^^^ G.PackedSNP1)) &&&
    G.PackedMissing &&& lowBits len
  popCount ((H1 ^^^ G.PackedSNP1) &&& MASK) + popCount ((H2 ^^^ G.PackedSNP2) &&& MASK)

/-! ### Bit-serial form of the distance kernel

`hamRec` recomputes `hamDist` one locus at a time; `hamDist_eq_hamRec` is the
bridge.  All properties of the kernel are proved by induction on `hamRec`. -/

/-- Contribution of a single locus (all arguments are single bits). -/
def hamBit (a b s1 s2 m : ℕ) : ℕ :=
  let MASK := ((a ^^^ s2) ||| (b ^^^ s1)) &&& m
  ((a ^^^ s1) &&& MASK) + ((b ^^^ s2) &&& MASK)

/-- Bit-serial restatement of `hamDist`, low bit first. -/
def hamRec : ℕ → ℕ → ℕ → ℕ → ℕ → ℕ → ℕ
  | 0, _, _, _, _, _ => 0
  | len + 1, h1, h2, s1, s2, m =>
    hamBit (h1 % 2) (h2 % 2) (s1 % 2) (s2 % 2) (m % 2) +
      hamRec len (h1 / 2) (h2 / 2) (s1 / 2) (s2 / 2) (m / 2)

theorem lowBits_succ_div_two (n : ℕ) : lowBits (n + 1) / 2 = lowBits n := by
  have h : (2 : ℕ) ^ (n + 1) = 2 * 2 ^ n := by ring
  have h2 : (1 : ℕ) ≤ 2 ^ n := Nat.one_le_two_pow
  unfold lowBits
  omega

theorem lowBits_succ_mod_two (n : ℕ) : lowBits (n + 1) % 2 = 1 := by
  have h : (2 : ℕ) ^ (n + 1) = 2 * 2 ^ n := by ring
  have h2 : (1 : ℕ) ≤ 2 ^ n := Nat.one_le_two_pow
  unfold lowBits
  omega

theorem and_mod_two (a b : ℕ) : (a &&& b) % 2 = a % 2 &&& b % 2 := by
  have h := Nat.testBit_and a b 0
  simp only [Nat.testBit_zero] at h
  rcases Nat.mod_two_eq_zero_or_one (a &&& b) with r | r <;>
    rcases Nat.mod_two_eq_zero_or_one a with p | p <;>
    rcases Nat.mod_two_eq_zero_or_one b with q | q <;>
    rw [r, p, q] <;> rw [r, p, q] at h <;>
    first | decide | exact absurd h (by decide)

theorem or_mod_two (a b : ℕ) : (a ||| b) % 2 = a % 2 ||| b % 2 := by
  have h := Nat.testBit_or a b 0
  simp only [Nat.testBit_zero] at h
  rcases Nat.mod_two_eq_zero_or_one (a ||| b) with r | r <;>
    rcases Nat.mod_two_eq_zero_or_one a with p | p <;>
    rcases Nat.mod_two_eq_zero_or_one b with q | q <;>
    rw [r, p, q] <;> rw [r, p, q] at h <;>
    first | decide | exact absurd h (by decide)

theorem xor_mod_two (a b : ℕ) : (a ^^^ b) % 2 = a % 2 ^^^ b % 2 := by
  have h := Nat.testBit_xor a b 0
  simp only [Nat.testBit_zero] at h
  rcases Nat.mod_two_eq_zero_or_one (a ^^^ b) with r | r <;>
    rcases Nat.mod_two_eq_zero_or_one a with p | p <;>
    rcases Nat.mod_two_eq_zero_or_one b with q | q <;>
    rw [r, p, q] <;> rw [r, p, q] at h <;>
    first | decide | exact absurd h (by decide)

theorem le_one_and_one (x : ℕ) (h : x ≤ 1) : x &&& 1 = x := by
  interval_cases x <;> decide

theorem hamDist_eq_hamRec (len : ℕ) (H1 H2 : ℕ) (G : TGenotype) :
    hamDist len H1 H2 G =
      hamRec len H1 H2 G.PackedSNP1 G.PackedSNP2 G.PackedMissing := by
  obtain ⟨s1, s2, m, _⟩ := G
  simp only [hamDist]
  induction len generalizing H1 H2 s1 s2 m with
  | zero =>
    simp [hamRec, lowBits, popCount_zero]
  | succ n ih =>
    rw [hamRec, ← ih (H1 / 2) (H2 / 2) (s1 / 2) (s2 / 2) (m / 2)]
    rw [popCount_eq ((H1 ^^^ s1) &&& _), popCount_eq ((H2 ^^^ s2) &&& _)]
    simp only [Nat.and_div_two, Nat.or_div_two, Nat.xor_div_two,
      and_mod_two, or_mod_two, xor_mod_two, lowBits_succ_div_two,
      lowBits_succ_mod_two, hamBit]
    rw [le_one_and_one ((H1 % 2 ^^^ s2 % 2 ||| H2 % 2 ^^^ s1 % 2) &&& m % 2)
      (le_trans Nat.and_le_right (by omega))]
    ring

theorem hamRec_symm (len : ℕ) (h1 h2 s1 s2 m : ℕ) :
    hamRec len h1 h2 s1 s2 m = hamRec len h2 h1 s1 s2 m := by
  induction len generalizing h1 h2 s1 s2 m with
  | zero => rfl
  | succ n ih =>
    rw [hamRec, hamRec, ih (h1 / 2) (h2 / 2)]
    congr 1
    rcases Nat.mod_two_eq_zero_or_one h1 with p1 | p1 <;>
      rcases Nat.mod_two_eq_zero_or_one h2 with p2 | p2 <;>
      rcases Nat.mod_two_eq_zero_or_one s1 with q1 | q1 <;>
      rcases Nat.mod_two_eq_zero_or_one s2 with q2 | q2 <;>
      rcases Nat.mod_two_eq_zero_or_one m with r | r <;>
      rw [p1, p2, q1, q2, r] <;> decide

theorem hamRec_eq_zero (len : ℕ) (h1 h2 s1 s2 m : ℕ)
    (hmatch : ∀ i, i < len → m / 2 ^ i % 2 = 1 →
      h1 / 2 ^ i % 2 + h2 / 2 ^ i % 2 = s1 / 2 ^ i % 2 + s2 / 2 ^ i % 2) :
    hamRec len h1 h2 s1 s2 m = 0 := by
  induction len generalizing h1 h2 s1 s2 m with
  | zero => rfl
  | succ n ih =>
    rw [hamRec]
    have hbit : hamBit (h1 % 2) (h2 % 2) (s1 % 2) (s2 % 2) (m % 2) = 0 := by
      have h0 := hmatch 0 (Nat.succ_pos n)
      simp only [pow_zero, Nat.div_one] at h0
      rcases Nat.mod_two_eq_zero_or_one m with r | r
      · rw [r]
        rcases Nat.mod_two_eq_zero_or_one h1 with p1 | p1 <;>
          rcases Nat.mod_two_eq_zero_or_one h2 with p2 | p2 <;>
          rcases Nat.mod_two_eq_zero_or_one s1 with q1 | q1 <;>
          rcases Nat.mod_two_eq_zero_or_one s2 with q2 | q2 <;>
          rw [p1, p2, q1, q2] <;> decide
      · have hsum := h0 r
        rw [r]
        rcases Nat.mod_two_eq_zero_or_one h1 with p1 | p1 <;>
          rcases Nat.mod_two_eq_zero_or_one h2 with p2 | p2 <;>
          rcases Nat.mod_two_eq_zero_or_one s1 with q1 | q1 <;>
          rcases Nat.mod_two_eq_zero_or_one s2 with q2 | q2 <;>
          rw [p1, p2, q1, q2] <;> rw [p1, p2, q1, q2] at hsum <;>
          first | decide | omega
    rw [hbit, ih]
    intro i hi hm
    have h := hmatch (i + 1) (by omega)
    have e : ∀ x : ℕ, x / 2 ^ (i + 1) = x / 2 / 2 ^ i := by
      intro x
      rw [Nat.div_div_eq_div_mul, pow_succ, Nat.mul_comm]
    rw [e h1, e h2, e s1, e s2, e m] at h
    exact h hm

/-- C1: for every genotype, haplotype pair and length within the classifier
capacity, the Hamming-distance primitive `TGenotype::_HamDist` is symmetric in
the two haplotypes, and it returns 0 whenever the pair's allele count matches
the genotype's called allele count at every called locus below the length
(uncalled loci are masked out and contribute nothing). -/
theorem C1_hamDist_symm_and_zero_on_match (len : ℕ)
    (hlen : len ≤ HIBAG_MAXNUM_SNP_IN_CLASSIFIER) (H1 H2 : ℕ) (G : TGenotype) :
    hamDist len H1 H2 G = hamDist len H2 H1 G ∧
    ((∀ i, i < len → G.GetSNP i ≠ -1 →
        (GetAllele H1 i + GetAllele H2 i : ℤ) = G.GetSNP i) →
      hamDist len H1 H2 G = 0) := by
  constructor
  · rw [hamDist_eq_hamRec, hamDist_eq_hamRec, hamRec_symm]
  · intro hmatch
    rw [hamDist_eq_hamRec]
    apply hamRec_eq_zero
    intro i hi hm
    have h := hmatch i hi
    have em : ∀ x : ℕ, (x >>> i) &&& 1 = x / 2 ^ i % 2 := by
      intro x
      rw [Nat.and_one_is_mod, Nat.shiftRight_eq_div_pow]
    simp only [TGenotype.GetSNP, GetAllele, em] at h
    rw [if_pos hm] at h
    have h2 := h (by
      intro hcontra
      have : ((G.PackedSNP1 / 2 ^ i % 2 : ℕ) : ℤ) + ((G.PackedSNP2 / 2 ^ i % 2 : ℕ) : ℤ) = -1 :=
        hcontra
      omega)
    omega

/-- Witness for C1: a concrete genotype `(1, 2)` at two loci (planes
`S1 = 0b11`, `S2 = 0b10`, `M = 0b11`) with the matching ordered pair
`H1 = 0b11`, `H2 = 0b10`. -/
theorem C1_witness :
    hamDist 2 3 2 ⟨3, 2, 3, 0⟩ = hamDist 2 2 3 ⟨3, 2, 3, 0⟩ ∧
      hamDist 2 3 2 ⟨3, 2, 3, 0⟩ = 0 :=
  ⟨(C1_hamDist_symm_and_zero_on_match 2 (by decide) 3 2 ⟨3, 2, 3, 0⟩).1,
    (C1_hamDist_symm_and_zero_on_match 2 (by decide) 3 2 ⟨3, 2, 3, 0⟩).2 (by decide)⟩

/-! ## Haplotype-list transforms (`CHaplotypeList`) -/

/-- `CHaplotypeList::ScaleFrequency(scale)`: multiply every haplotype's
current frequency by `scale`. -/
def ScaleFrequency (scale : ℚ) (L : List (List THaplotype)) : List (List THaplotype) :=
  L.map (fun cls => cls.map (fun h => { h with Frequency := h.Frequency * scale }))

/-- Per-class body of `CHaplotypeList::EraseDoubleHaplos`: walk the sibling
pairs `(src[j], src[j+1])`; a pair with a child below `RareProb` is merged into
the higher-frequency sibling carrying the combined frequency, and dropped
entirely if the combined frequency is below `MIN_RARE_FREQ`; the second
component accumulates the C variable `sum` (total frequency of everything
kept).  The source is only invoked on doubled lists, whose class sizes are
even; a trailing odd element (impossible there) is ignored. -/
def eraseDoubleHaplosClass (RareProb : ℚ) : List THaplotype → List THaplotype × ℚ
  | p0 :: p1 :: rest =>
    if p0.Frequency < RareProb ∨ p1.Frequency < RareProb then
      if p0.Frequency + p1.Frequency ≥ MIN_RARE_FREQ then
        ({ (if p0.Frequency ≥ p1.Frequency then p0 else p1) with
            Frequency := p0.Frequency + p1.Frequency } ::
              (eraseDoubleHaplosClass RareProb rest).1,
          (eraseDoubleHaplosClass RareProb rest).2 + (p0.Frequency + p1.Frequency))
      else eraseDoubleHaplosClass RareProb rest
    else
      (p0 :: p1 :: (eraseDoubleHaplosClass RareProb rest).1,
        (eraseDoubleHaplosClass RareProb rest).2 + (p0.Frequency + p1.Frequency))
  | _ => ([], 0)

/-- `CHaplotypeList::EraseDoubleHaplos(RareProb, OutHaplos)`: prune/merge each
class, then `OutHaplos.ScaleFrequency(1/sum)`. -/
def EraseDoubleHaplos (RareProb : ℚ) (L : List (List THaplotype)) :
    List (List THaplotype) :=
  let processed := L.map (eraseDoubleHaplosClass RareProb)
  let sum := (processed.map Prod.snd).sum
  ScaleFrequency (1 / sum) (processed.map Prod.fst)

/-- Total current frequency of one class. -/
def classFreqSum (cls : List THaplotype) : ℚ := (cls.map THaplotype.Frequency).sum

/-- Total current frequency across all classes of a haplotype list. -/
def totalFreq (L : List (List THaplotype)) : ℚ := (L.map classFreqSum).sum

/-- The C variable `sum` of `EraseDoubleHaplos`: total frequency of the
surviving (kept or merged) haplotypes. -/
def survivorSum (RareProb : ℚ) (L : List (List THaplotype)) : ℚ :=
  (L.map (fun cls => (eraseDoubleHaplosClass RareProb cls).2)).sum

theorem eraseClass_snd_eq (RareProb : ℚ) :
    ∀ cls : List THaplotype,
      (eraseDoubleHaplosClass RareProb cls).2 =
        classFreqSum (eraseDoubleHaplosClass RareProb cls).1
  | [] => rfl
  | [_] => rfl
  | p0 :: p1 :: rest => by
    have ih := eraseClass_snd_eq RareProb rest
    rw [eraseDoubleHaplosClass]
    by_cases h1 : p0.Frequency < RareProb ∨ p1.Frequency < RareProb
    · by_cases h2 : p0.Frequency + p1.Frequency ≥ MIN_RARE_FREQ
      · rw [if_pos h1, if_pos h2]
        simp only [classFreqSum, List.map_cons, List.sum_cons] at ih ⊢
        rw [ih]
        ring
      · rw [if_pos h1, if_neg h2]
        exact ih
    · rw [if_neg h1]
      simp only [classFreqSum, List.map_cons, List.sum_cons] at ih ⊢
      rw [ih]
      ring

theorem classFreqSum_scale (c : ℚ) (cls : List THaplotype) :
    classFreqSum (cls.map (fun h => { h with Frequency := h.Frequency * c })) =
      classFreqSum cls * c := by
  unfold classFreqSum
  rw [List.map_map]
  have h : (THaplotype.Frequency ∘ fun h => { h with Frequency := h.Frequency * c }) =
      fun h : THaplotype => h.Frequency * c := rfl
  rw [h, List.sum_map_mul_right]

theorem totalFreq_scale (c : ℚ) (L : List (List THaplotype)) :
    totalFreq (ScaleFrequency c L) = totalFreq L * c := by
  unfold totalFreq ScaleFrequency
  rw [List.map_map]
  have h : ∀ cls ∈ L, (classFreqSum ∘ fun cls =>
      cls.map (fun h => { h with Frequency := h.Frequency * c })) cls =
      classFreqSum cls * c := by
    intro cls _
    exact classFreqSum_scale c cls
  rw [List.map_congr_left h, List.sum_map_mul_right]

/-- C8 (amended): whenever the post-prune survivor frequency sum is positive,
`EraseDoubleHaplos` leaves a list whose total frequency across all classes is
exactly 1.  (The claim's hypothesis — positive total frequency of the *input*
list — is not sufficient: see the counterexample.) -/
theorem C8_eraseDoubleHaplos_normalizes (RareProb : ℚ) (L : List (List THaplotype))
    (hsum : 0 < survivorSum RareProb L) :
    totalFreq (EraseDoubleHaplos RareProb L) = 1 := by
  unfold EraseDoubleHaplos
  rw [totalFreq_scale]
  have h1 : totalFreq ((L.map (eraseDoubleHaplosClass RareProb)).map Prod.fst) =
      ((L.map (eraseDoubleHaplosClass RareProb)).map Prod.snd).sum := by
    unfold totalFreq
    simp only [List.map_map]
    congr 1
    apply List.map_congr_left
    intro cls _
    simp only [Function.comp_apply]
    exact (eraseClass_snd_eq RareProb cls).symm
  rw [h1]
  have h2 : ((L.map (eraseDoubleHaplosClass RareProb)).map Prod.snd).sum =
      survivorSum RareProb L := by
    unfold survivorSum
    rw [List.map_map]
    rfl
  rw [h2]
  field_simp

/-- Witness input for C8: two common haplotypes of frequency 1/2 each. -/
def C8goodInput : List (List THaplotype) := [[⟨0, 1/2, 0⟩, ⟨1, 1/2, 0⟩]]

theorem C8_witness :
    0 < survivorSum MIN_RARE_FREQ C8goodInput ∧
      totalFreq (EraseDoubleHaplos MIN_RARE_FREQ C8goodInput) = 1 :=
  ⟨by norm_num [survivorSum, eraseDoubleHaplosClass, C8goodInput, MIN_RARE_FREQ],
    C8_eraseDoubleHaplos_normalizes MIN_RARE_FREQ C8goodInput
      (by norm_num [survivorSum, eraseDoubleHaplosClass, C8goodInput, MIN_RARE_FREQ])⟩

/-- Counterexample input for C8 as stated: one sibling pair whose children are
both rare (frequency 1/250000 each, combined 8e-6 < `MIN_RARE_FREQ`), so the
pair is dropped, the survivor sum is 0, and nothing is left to renormalize. -/
def C8badInput : List (List THaplotype) := [[⟨0, 1/250000, 0⟩, ⟨1, 1/250000, 0⟩]]

/-- Counterexample to C8 as stated: the input has positive total frequency,
yet after `EraseDoubleHaplos` the total frequency is 0, not 1. -/
theorem C8_counterexample :
    0 < totalFreq C8badInput ∧
      totalFreq (EraseDoubleHaplos MIN_RARE_FREQ C8badInput) ≠ 1 := by
  norm_num [C8badInput, totalFreq, classFreqSum, EraseDoubleHaplos,
    eraseDoubleHaplosClass, ScaleFrequency, MIN_RARE_FREQ]

/-! ## Variable-selection acceptance gate (`CVariableSelection::Search`) -/

/-- The `sign` decision of `CVariableSelection::Search` (the block headed
`// compare ...`): accept the round's winner `min_i` against the global
best-so-far accuracy / loss. -/
def acceptSign (max_OutOfBagAcc Global_Max_OutOfBagAcc min_loss Global_Min_Loss : ℚ)
    (min_i : ℤ) : Bool :=
  if max_OutOfBagAcc > Global_Max_OutOfBagAcc then true
  else if max_OutOfBagAcc = Global_Max_OutOfBagAcc then
    if min_i ≥ 0 then
      decide (min_loss ≥ STOP_RELTOL_LOGLIK_ADDSNP ∧
        min_loss < Global_Min_Loss * (1 - STOP_RELTOL_LOGLIK_ADDSNP))
    else false
  else false

/-- Modelled from the spec: the acceptance rule exactly as the claim states it
(strictly better accuracy, or an accuracy tie with a deviance improvement
beyond the relative stopping tolerance), with no further condition. -/
def acceptSignSpec (max_OutOfBagAcc Global_Max_OutOfBagAcc min_loss Global_Min_Loss : ℚ) :
    Bool :=
  decide (max_OutOfBagAcc > Global_Max_OutOfBagAcc ∨
    (max_OutOfBagAcc = Global_Max_OutOfBagAcc ∧
      min_loss < Global_Min_Loss * (1 - STOP_RELTOL_LOGLIK_ADDSNP)))

/-- Counterexample to C4 as stated: with global best accuracy 1/2 tied, global
best deviance 1 and a winner (`min_i = 0`) of deviance 1/2000, the deviance
improves far beyond the relative tolerance, so the claimed rule accepts — but
the code rejects, because of its extra absolute condition
`min_loss >= STOP_RELTOL_LOGLIK_ADDSNP` (1/2000 < 1/1000). -/
theorem C4_counterexample :
    acceptSignSpec (1/2) (1/2) (1/2000) 1 = true ∧
      acceptSign (1/2) (1/2) (1/2000) 1 0 = false := by
  norm_num [acceptSignSpec, acceptSign, STOP_RELTOL_LOGLIK_ADDSNP]

/-- C4 (amended): the round's winner is accepted iff its accuracy strictly
exceeds the global best, or a winner exists (`0 ≤ min_i`), it ties the global
best accuracy, its deviance is at least the absolute threshold
`STOP_RELTOL_LOGLIK_ADDSNP`, and its deviance improves below
`Global_Min_Loss * (1 - STOP_RELTOL_LOGLIK_ADDSNP)`. -/
theorem C4_acceptance_gate (maxAcc gAcc minLoss gLoss : ℚ) (minI : ℤ) :
    acceptSign maxAcc gAcc minLoss gLoss minI = true ↔
      (gAcc < maxAcc ∨ (maxAcc = gAcc ∧ 0 ≤ minI ∧
        STOP_RELTOL_LOGLIK_ADDSNP ≤ minLoss ∧
        minLoss < gLoss * (1 - STOP_RELTOL_LOGLIK_ADDSNP))) := by
  unfold acceptSign
  split_ifs with h1 h2 h3
  · simp only [true_iff]
    exact Or.inl h1
  · simp only [decide_eq_true_eq]
    constructor
    · rintro ⟨ha, hb⟩
      exact Or.inr ⟨h2, h3, ha, hb⟩
    · rintro (h | ⟨-, -, ha, hb⟩)
      · exact absurd h h1
      · exact ⟨ha, hb⟩
  · simp only [false_iff]
    rintro (h | ⟨-, h0, -⟩)
    · exact absurd h h1
    · exact absurd h0 h3
  · simp only [false_iff]
    rintro (h | ⟨h, -⟩)
    · exact absurd h h1
    · exact absurd h h2

/-! ## `CAlg_EM::PrepareNewSNP` -/

/-- Unbounded-ℕ rendering of `THaplotype::_SetAllele(idx, val)`
(`ch = (ch & ~(0x01 << r)) | (val << r)`): clear bit `idx`, then or in `val`. -/
def setAllele (packed : ℕ) (idx : ℕ) (val : ℕ) : ℕ :=
  packed / 2 ^ (idx + 1) * 2 ^ (idx + 1) + packed % 2 ^ idx + val * 2 ^ idx

/-- `CHaplotypeList::DoubleHaplos`: every haplotype is split into a child with
the new marker bit 0 and a child with it 1 (frequencies are copied along). -/
def DoubleHaplos (Num_SNP : ℕ) (L : List (List THaplotype)) : List (List THaplotype) :=
  L.map (fun cls => cls.bind (fun h =>
    [{ h with Packed := setAllele h.Packed Num_SNP 0 },
     { h with Packed := setAllele h.Packed Num_SNP 1 }]))

/-- Per-class body of `CHaplotypeList::DoubleHaplosInitFreq(AFreq)`: walking
the doubled list pairwise, `dst[2j].Frequency = src[j].Frequency*(1-AFreq) +
EM_INIT_VAL_FRAC` and `dst[2j+1].Frequency = src[j].Frequency*AFreq +
EM_INIT_VAL_FRAC`; after `DoubleHaplos` both children still carry
`src[j].Frequency`, so the update reads it off the children directly. -/
def initFreqPairs (AFreq : ℚ) : List THaplotype → List THaplotype
  | d0 :: d1 :: rest =>
    { d0 with Frequency := d0.Frequency * (1 - AFreq) + EM_INIT_VAL_FRAC } ::
      { d1 with Frequency := d1.Frequency * AFreq + EM_INIT_VAL_FRAC } ::
        initFreqPairs AFreq rest
  | l => l

/-- `THaploPair`: a candidate haplotype pair for one sample, with the
compatibility flag and working joint frequency. -/
structure THaploPair where
  Flag : Bool
  H1 : THaplotype
  H2 : THaplotype
  Freq : ℚ

/-- The flag-update loop of `CAlg_EM::PrepareNewSNP`: with `geno` the sample's
genotype at the new marker, a pair stays compatible iff its two child alleles
at `IdxNewSNP` sum to `geno`; an uncalled `geno` makes every pair compatible. -/
def updatePairFlags (geno : ℤ) (IdxNewSNP : ℕ) (pairs : List THaploPair) :
    List THaploPair :=
  if 0 ≤ geno ∧ geno ≤ 2 then
    pairs.map (fun p => { p with
      Flag := ((GetAllele p.H1.Packed IdxNewSNP + GetAllele p.H2.Packed IdxNewSNP : ℕ) : ℤ) = geno })
  else
    pairs.map (fun p => { p with Flag := true })

/-- The counting loop of `CAlg_EM::PrepareNewSNP`: over samples given as
`(BootstrapCount, genotype at NewSNP)`, accumulate
`(allele_cnt, valid_cnt) += (g*dup, 2*dup)` for positively weighted samples
with a called genotype. -/
def newSNPAlleleCounts (sampData : List (ℤ × ℤ)) : ℤ × ℤ :=
  sampData.foldl (fun acc s =>
    if 0 < s.1 then
      if 0 ≤ s.2 ∧ s.2 ≤ 2 then (acc.1 + s.2 * s.1, acc.2 + 2 * s.1) else acc
    else acc) (0, 0)

/-- `CAlg_EM::PrepareNewSNP`: compute the weighted allele counts of the new
marker; if `allele_cnt == 0 || allele_cnt == valid_cnt` return `false`
(modelled as `none`); otherwise initialize the doubled haplotype frequencies
with the allele frequency `allele_cnt/valid_cnt` and re-flag every sample's
pair list (each sample is given with its genotype at the new marker). -/
def PrepareNewSNP (sampData : List (ℤ × ℤ)) (NextHaplo : List (List THaplotype))
    (pairLists : List (ℤ × List THaploPair)) (IdxNewSNP : ℕ) :
    Option (List (List THaplotype) × List (List THaploPair)) :=
  let counts := newSNPAlleleCounts sampData
  if counts.1 = 0 ∨ counts.1 = counts.2 then none
  else
    some (NextHaplo.map (initFreqPairs ((counts.1 : ℚ) / (counts.2 : ℚ))),
      pairLists.map (fun s => updatePairFlags s.1 IdxNewSNP s.2))

/-- The spec-side sample-weighted allele count of the candidate marker (sum
over positively-weighted samples with a called genotype). -/
def weightedAlleleCount (sampData : List (ℤ × ℤ)) : ℤ :=
  ((sampData.filter (fun s => decide (0 < s.1) && decide (0 ≤ s.2) && decide (s.2 ≤ 2))).map
    (fun s => s.2 * s.1)).sum

/-- The spec-side total weighted allele count (two alleles per weighted sample). -/
def totalWeightedCount (sampData : List (ℤ × ℤ)) : ℤ :=
  ((sampData.filter (fun s => decide (0 < s.1) && decide (0 ≤ s.2) && decide (s.2 ≤ 2))).map
    (fun s => 2 * s.1)).sum

theorem newSNPAlleleCounts_foldl (sampData : List (ℤ × ℤ)) :
    ∀ init : ℤ × ℤ,
      sampData.foldl (fun acc s =>
        if 0 < s.1 then
          if 0 ≤ s.2 ∧ s.2 ≤ 2 then (acc.1 + s.2 * s.1, acc.2 + 2 * s.1) else acc
        else acc) init =
      (init.1 + weightedAlleleCount sampData, init.2 + totalWeightedCount sampData) := by
  induction sampData with
  | nil => intro init; simp [weightedAlleleCount, totalWeightedCount]
  | cons s rest ih =>
    intro init
    rw [List.foldl_cons]
    by_cases h1 : 0 < s.1
    · by_cases h2 : 0 ≤ s.2 ∧ s.2 ≤ 2
      · rw [if_pos h1, if_pos h2, ih]
        have hc : (decide (0 < s.1) && decide (0 ≤ s.2) && decide (s.2 ≤ 2)) = true := by
          simp [h1, h2.1, h2.2]
        simp [weightedAlleleCount, totalWeightedCount, List.filter_cons, hc,
          Prod.ext_iff]
        constructor <;> ring
      · rw [if_pos h1, if_neg h2, ih]
        have hc : (decide (0 < s.1) && decide (0 ≤ s.2) && decide (s.2 ≤ 2)) = false := by
          rcases not_and_or.mp h2 with h | h <;> simp [h]
        simp [weightedAlleleCount, totalWeightedCount, List.filter_cons, hc]
    · rw [if_neg h1, ih]
      have hc : (decide (0 < s.1) && decide (0 ≤ s.2) && decide (s.2 ≤ 2)) = false := by
        simp [h1]
      simp [weightedAlleleCount, totalWeightedCount, List.filter_cons, hc]

theorem newSNPAlleleCounts_eq (sampData : List (ℤ × ℤ)) :
    newSNPAlleleCounts sampData =
      (weightedAlleleCount sampData, totalWeightedCount sampData) := by
  unfold newSNPAlleleCounts
  rw [newSNPAlleleCounts_foldl]
  simp

/-- C7: `CAlg_EM::PrepareNewSNP` rejects the candidate marker (returns
`false`, i.e. `none` — no error) iff the marker is monomorphic among
positively-weighted samples: its sample-weighted allele count is 0 or equals
the total weighted allele count.  Otherwise it succeeds. -/
theorem C7_prepareNewSNP_rejects_iff_monomorphic (sampData : List (ℤ × ℤ))
    (NextHaplo : List (List THaplotype)) (pairLists : List (ℤ × List THaploPair))
    (IdxNewSNP : ℕ) :
    (PrepareNewSNP sampData NextHaplo pairLists IdxNewSNP).isNone = true ↔
      (weightedAlleleCount sampData = 0 ∨
        weightedAlleleCount sampData = totalWeightedCount sampData) := by
  unfold PrepareNewSNP
  rw [newSNPAlleleCounts_eq]
  by_cases h : weightedAlleleCount sampData = 0 ∨
      weightedAlleleCount sampData = totalWeightedCount sampData
  · rw [if_pos h]
    simpa using h
  · rw [if_neg h]
    simpa using h

/-! ## `CAttrBag_Model::NewClassifierBootstrap` -/

/-- `RandomNum(n)`: the C code computes `v = (int)(n * unif_rand())` with
`unif_rand() ∈ [0,1]` and clamps `v >= n` to `n-1`; the raw `v` is the oracle
input here. -/
def RandomNum (n : ℕ) (v : ℕ) : ℕ := if n ≤ v then n - 1 else v

/-- One bootstrap attempt's `n` uniform picks, driven by an oracle `r`. -/
def drawPicks (n : ℕ) (r : ℕ → ℕ) : List ℕ :=
  (List.range n).map (fun i => RandomNum n (r i))

/-- The counting loop of one bootstrap attempt: `S[k]++` for every pick, and
`n_unique++` whenever a bin goes from 0 to positive. -/
def bootstrapCount (n : ℕ) (picks : List ℕ) : List ℕ × ℕ :=
  picks.foldl (fun acc k =>
    (acc.1.set k (acc.1.getD k 0 + 1),
      if acc.1.getD k 0 = 0 then acc.2 + 1 else acc.2))
    (List.replicate n 0, 0)

/-- `CAttrBag_Model::NewClassifierBootstrap`'s do-while loop: draw `n` picks,
build the replication counts, and redraw while `n_unique >= n` (every sample
picked).  `R t` is attempt `t`'s random oracle; the loop is fuel-indexed
because an adversarial oracle could reject forever. -/
def NewClassifierBootstrap (n : ℕ) (R : ℕ → ℕ → ℕ) : ℕ → Option (List ℕ)
  | 0 => none
  | fuel + 1 =>
    let r := bootstrapCount n (drawPicks n (R fuel))
    if n ≤ r.2 then NewClassifierBootstrap n R fuel else some r.1

theorem bootstrapCount_foldl (n : ℕ) (picks : List ℕ) (hp : ∀ k ∈ picks, k < n) :
    ∀ S : List ℕ, ∀ u : ℕ, S.length = n → u = (S.filter (· ≠ 0)).length →
      (picks.foldl (fun acc k =>
        (acc.1.set k (acc.1.getD k 0 + 1),
          if acc.1.getD k 0 = 0 then acc.2 + 1 else acc.2)) (S, u)).1.length = n ∧
      (picks.foldl (fun acc k =>
        (acc.1.set k (acc.1.getD k 0 + 1),
          if acc.1.getD k 0 = 0 then acc.2 + 1 else acc.2)) (S, u)).2 =
        ((picks.foldl (fun acc k =>
          (acc.1.set k (acc.1.getD k 0 + 1),
            if acc.1.getD k 0 = 0 then acc.2 + 1 else acc.2)) (S, u)).1.filter (· ≠ 0)).length := by
  induction picks with
  | nil => intro S u hS hu; exact ⟨hS, hu⟩
  | cons k rest ih =>
    intro S u hS hu
    rw [List.foldl_cons]
    have hk : k < n := hp k (List.mem_cons_self k rest)
    have hrest : ∀ k ∈ rest, k < n := fun j hj => hp j (List.mem_cons_of_mem k hj)
    have hkS : k < S.length := by omega
    have hgd : S.getD k 0 = S[k] := by
      simp [List.getD_eq_getElem?_getD, List.getElem?_eq_getElem hkS]
    have hlen : (S.set k (S.getD k 0 + 1)).length = n := by
      simp [hS]
    have hcount : (if S.getD k 0 = 0 then u + 1 else u) =
        ((S.set k (S.getD k 0 + 1)).filter (· ≠ 0)).length := by
      rw [hgd, hu]
      have hsplit : ∀ x : ℕ, ((S.set k x).filter (· ≠ 0)).length =
          ((S.take k).filter (· ≠ 0)).length + (if x ≠ 0 then 1 else 0) +
            ((S.drop (k + 1)).filter (· ≠ 0)).length := by
        intro x
        rw [List.set_eq_take_append_cons_drop, if_pos hkS]
        simp only [List.filter_append, List.length_append, List.filter_cons]
        by_cases hx : x ≠ 0 <;> simp [hx] <;> omega
      have hSsplit : (S.filter (· ≠ 0)).length =
          ((S.take k).filter (· ≠ 0)).length + (if S[k] ≠ 0 then 1 else 0) +
            ((S.drop (k + 1)).filter (· ≠ 0)).length := by
        conv_lhs => rw [← List.take_append_drop k S, List.drop_eq_getElem_cons hkS]
        simp only [List.filter_append, List.length_append, List.filter_cons]
        by_cases hx : S[k] ≠ 0 <;> simp [hx] <;> omega
      rw [hsplit, hSsplit]
      by_cases h0 : S[k] = 0 <;> simp [h0] <;> omega
    exact ih hrest _ _ hlen hcount

theorem drawPicks_lt (n : ℕ) (hn : 0 < n) (r : ℕ → ℕ) : ∀ k ∈ drawPicks n r, k < n := by
  intro k hk
  unfold drawPicks at hk
  rw [List.mem_map] at hk
  obtain ⟨i, _, hi⟩ := hk
  unfold RandomNum at hi
  split_ifs at hi <;> omega

/-- C6: every bootstrap weight vector accepted by the do-while loop over more
than one sample has at least one zero-weight (out-of-bag) sample; draws with
`n_unique >= n` (every sample picked at least once) are rejected and redrawn. -/
theorem C6_bootstrap_has_oob (n : ℕ) (R : ℕ → ℕ → ℕ) (fuel : ℕ) (S : List ℕ)
    (hn : 1 < n) (hres : NewClassifierBootstrap n R fuel = some S) :
    ∃ k, k < n ∧ S.getD k 0 = 0 := by
  induction fuel with
  | zero => exact absurd hres (by simp [NewClassifierBootstrap])
  | succ fuel ih =>
    rw [NewClassifierBootstrap] at hres
    by_cases hrej : n ≤ (bootstrapCount n (drawPicks n (R fuel))).2
    · rw [if_pos hrej] at hres
      exact ih hres
    · rw [if_neg hrej] at hres
      have hS : S = (bootstrapCount n (drawPicks n (R fuel))).1 := by
        injection hres.symm
      have hinv := bootstrapCount_foldl n (drawPicks n (R fuel))
        (drawPicks_lt n (by omega) (R fuel)) (List.replicate n 0) 0
        (by simp) (by simp [List.filter_replicate])
      rw [← bootstrapCount] at hinv
      obtain ⟨hlen, hcnt⟩ := hinv
      rw [← hS] at hlen hcnt
      rw [hcnt] at hrej
      have hex : ∃ x ∈ S, x = 0 := by
        by_contra hall
        push_neg at hall
        have : S.filter (· ≠ 0) = S := by
          apply List.filter_eq_self.mpr
          intro a ha
          simpa using hall a ha
        rw [this, hlen] at hrej
        omega
      obtain ⟨x, hxmem, hx0⟩ := hex
      obtain ⟨i, hi, hgi⟩ := List.getElem_of_mem hxmem
      refine ⟨i, by omega, ?_⟩
      simp [List.getD_eq_getElem?_getD, List.getElem?_eq_getElem hi, hgi, hx0]

/-- Witness for C6: two samples, an oracle that always picks sample 0; the
first attempt gives counts `[2, 0]` with one unique pick, which is accepted,
and sample 1 is out of bag. -/
theorem C6_witness :
    1 < 2 ∧ ∃ k, k < 2 ∧ ([2, 0] : List ℕ).getD k 0 = 0 :=
  ⟨by omega, C6_bootstrap_has_oob 2 (fun _ _ => 0) 1 [2, 0] (by omega) (by rfl)⟩

/-! ## `CAlg_EM::ExpectationMaximization` loop control

The numeric E/M pass (SaveClearFrequency, posterior-weighted accumulation,
ScaleFrequency) is abstracted as a state transformer `step` on an arbitrary
state type, with `llik` the weighted log-likelihood the pass computes from the
pre-pass frequencies; the loop-control skeleton (`for (iter=0; iter <=
EM_MaxNum_Iterations; iter++)`, fixing `ConvTol` at `iter == 0`, breaking when
`|LogLik - Old_LogLik| <= ConvTol`) is translated literally. -/

/-- The EM `for` loop: `fuel` counts the remaining admissible values of
`iter` (the C loop runs while `iter <= cap`, i.e. starts with `cap+1` fuel);
returns (number of loop-body passes executed, final `ConvTol`). -/
def emGo {σ : Type} (step : σ → σ) (llik : σ → ℚ) :
    ℕ → ℕ → σ → ℚ → ℚ → ℕ × ℚ
  | 0, _, _, _, ConvTol => (0, ConvTol)
  | fuel + 1, iter, s, LogLik, ConvTol =>
    if 0 < iter then
      if |llik s - LogLik| ≤ ConvTol then (1, ConvTol)
      else
        let r := emGo step llik fuel (iter + 1) (step s) (llik s) ConvTol
        (r.1 + 1, r.2)
    else
      let t0 := EM_FuncRelTol * (|llik s| + EM_FuncRelTol)
      let t1 := if t0 < 0 then 0 else t0
      let r := emGo step llik fuel (iter + 1) (step s) (llik s) t1
      (r.1 + 1, r.2)

/-- `CAlg_EM::ExpectationMaximization`: run the loop from `iter = 0` with
`LogLik = -1e+30` and `ConvTol = 0`. -/
def ExpectationMaximization {σ : Type} (step : σ → σ) (llik : σ → ℚ) (cap : ℕ)
    (s0 : σ) : ℕ × ℚ :=
  emGo step llik (cap + 1) 0 s0 (-(10 ^ 30)) 0

theorem emGo_count_le {σ : Type} (step : σ → σ) (llik : σ → ℚ) :
    ∀ (fuel iter : ℕ) (s : σ) (L t : ℚ),
      (emGo step llik fuel iter s L t).1 ≤ fuel := by
  intro fuel
  induction fuel with
  | zero => intro iter s L t; rw [emGo]
  | succ fuel ih =>
    intro iter s L t
    rw [emGo]
    by_cases h1 : 0 < iter
    · rw [if_pos h1]
      by_cases h2 : |llik s - L| ≤ t
      · rw [if_pos h2]
        show 1 ≤ fuel + 1
        omega
      · rw [if_neg h2]
        show (emGo step llik fuel (iter + 1) (step s) (llik s) t).1 + 1 ≤ fuel + 1
        have := ih (iter + 1) (step s) (llik s) t
        omega
    · rw [if_neg h1]
      show (emGo step llik fuel (iter + 1) (step s) (llik s)
          (if EM_FuncRelTol * (|llik s| + EM_FuncRelTol) < 0 then 0
            else EM_FuncRelTol * (|llik s| + EM_FuncRelTol))).1 + 1 ≤ fuel + 1
      have := ih (iter + 1) (step s) (llik s)
        (if EM_FuncRelTol * (|llik s| + EM_FuncRelTol) < 0 then 0
          else EM_FuncRelTol * (|llik s| + EM_FuncRelTol))
      omega

theorem emGo_tol_fixed {σ : Type} (step : σ → σ) (llik : σ → ℚ) :
    ∀ (fuel iter : ℕ) (s : σ) (L t : ℚ), 0 < iter →
      (emGo step llik fuel iter s L t).2 = t := by
  intro fuel
  induction fuel with
  | zero => intro iter s L t _; rw [emGo]
  | succ fuel ih =>
    intro iter s L t hiter
    rw [emGo, if_pos hiter]
    by_cases h2 : |llik s - L| ≤ t
    · rw [if_pos h2]
    · rw [if_neg h2]
      show (emGo step llik fuel (iter + 1) (step s) (llik s) t).2 = t
      exact ih (iter + 1) (step s) (llik s) t (by omega)

/-- C3 (amended): the EM loop executes at most `cap + 1` loop-body passes
(the zero-based loop counter runs from 0 to the cap inclusive, so with the
configured `EM_MaxNum_Iterations` it can perform one more pass than the cap;
the first pass computes the initial log-likelihood), and the convergence
tolerance is computed once, during the first pass, as
`EM_FuncRelTol * (|first log-likelihood| + EM_FuncRelTol)` (clamped at 0) and
is reused unchanged by every later pass. -/
theorem C3_em_cap_and_fixed_tolerance {σ : Type} (step : σ → σ) (llik : σ → ℚ)
    (cap : ℕ) (s0 : σ) :
    (ExpectationMaximization step llik cap s0).1 ≤ cap + 1 ∧
      (ExpectationMaximization step llik cap s0).2 =
        (if EM_FuncRelTol * (|llik s0| + EM_FuncRelTol) < 0 then 0
          else EM_FuncRelTol * (|llik s0| + EM_FuncRelTol)) := by
  unfold ExpectationMaximization
  rw [emGo]
  simp only [lt_irrefl 0, if_false]
  constructor
  · have := emGo_count_le step llik cap (0 + 1) (step s0) (llik s0)
      (if EM_FuncRelTol * (|llik s0| + EM_FuncRelTol) < 0 then 0
        else EM_FuncRelTol * (|llik s0| + EM_FuncRelTol))
    omega
  · exact emGo_tol_fixed step llik cap (0 + 1) (step s0) (llik s0) _ (by omega)

/-- A two-state system whose log-likelihood alternates between 0 and 1, so the
change per pass (1) always exceeds the tolerance (2⁻⁵²): EM never converges. -/
def emAltStep (b : Bool) : Bool := !b

/-- Log-likelihood of the alternating system. -/
def emAltLLik (b : Bool) : ℚ := if b then 1 else 0

theorem emGo_alt_count (fuel : ℕ) :
    ∀ (iter : ℕ) (b : Bool), 0 < iter →
      (emGo emAltStep emAltLLik fuel iter b (emAltLLik (!b)) (1 / 2 ^ 52)).1 = fuel := by
  induction fuel with
  | zero => intro iter b _; rw [emGo]
  | succ fuel ih =>
    intro iter b hiter
    rw [emGo, if_pos hiter]
    have hno : ¬ |emAltLLik b - emAltLLik (!b)| ≤ (1 / 2 ^ 52 : ℚ) := by
      cases b <;> simp [emAltLLik] <;> norm_num
    rw [if_neg hno]
    have hrec := ih (iter + 1) (!b) (by omega)
    have hstep : emAltStep b = !b := rfl
    have hL : emAltLLik b = emAltLLik (!(!b)) := by simp
    rw [hstep]
    rw [hL] at *
    simp only [Bool.not_not] at *
    omega

/-- Counterexample to C3 as stated: with the configured cap
`EM_MaxNum_Iterations` (500), a never-converging run executes 501 loop-body
passes — more iterations than the cap. -/
theorem C3_counterexample :
    EM_MaxNum_Iterations <
      (ExpectationMaximization emAltStep emAltLLik EM_MaxNum_Iterations false).1 := by
  unfold ExpectationMaximization
  rw [emGo]
  simp only [lt_irrefl 0, if_false]
  have ht : (if EM_FuncRelTol * (|emAltLLik false| + EM_FuncRelTol) < 0 then 0
      else EM_FuncRelTol * (|emAltLLik false| + EM_FuncRelTol)) = (1 / 2 ^ 52 : ℚ) := by
    have hc : ¬ (EM_FuncRelTol * (|emAltLLik false| + EM_FuncRelTol) < 0) := by
      norm_num [emAltLLik, EM_FuncRelTol]
    rw [if_neg hc]
    norm_num [emAltLLik, EM_FuncRelTol]
  have hL : emAltLLik false = emAltLLik (!true) := rfl
  have hstep : emAltStep false = true := rfl
  rw [ht, hstep, hL]
  rw [emGo_alt_count EM_MaxNum_Iterations 1 true (by omega)]
  simp [EM_MaxNum_Iterations]

/-! ## Prediction / posterior engine (`CAlg_Prediction`) -/

/-- The global decay table `EXP_LOG_MIN_RARE_FREQ[cnt] = exp(cnt *
log(MIN_RARE_FREQ))`, i.e. exactly `MIN_RARE_FREQ ^ cnt` (entry 0 is 1); the
source's clamp of non-finite entries to 0 only acts where the `double` power
underflows, which the exact rational model does not exhibit. -/
def EXP_LOG_MIN_RARE_FREQ (cnt : ℕ) : ℚ := MIN_RARE_FREQ ^ cnt

/-- `FREQ_MUTANT(p, cnt) = p * EXP_LOG_MIN_RARE_FREQ[cnt]`. -/
def FREQ_MUTANT (p : ℚ) (cnt : ℕ) : ℚ := p * EXP_LOG_MIN_RARE_FREQ cnt

/-- `THLAType`: a pair of classification-locus allele indices (`NA_INTEGER`
encodes "no call"). -/
structure THLAType where
  Allele1 : ℤ
  Allele2 : ℤ
deriving DecidableEq

/-- `CHLATypeList::Compare(H1, H2)`: how many of `H1`'s two alleles match
`H2`'s, consuming each of `H2`'s alleles at most once (a matched allele is
overwritten with `-1`). -/
def CompareHLA (H1 H2 : THLAType) : ℕ :=
  let P1 := H1.Allele1
  let P2 := H1.Allele2
  let T1 := H2.Allele1
  let T2 := H2.Allele2
  if P1 = T1 ∨ P1 = T2 then
    let T1a := if P1 = T1 then -1 else T1
    let T2a := if P1 = T1 then T2 else -1
    if P2 = T1a ∨ P2 = T2a then 2 else 1
  else
    if P2 = T1 ∨ P2 = T2 then 1 else 0

/-- The unordered class-pair index sequence `(h1, h2)` with `h1 ≤ h2`, in the
iteration order of `CAlg_Prediction` (outer `h1` ascending, diagonal first,
then `h2 > h1` ascending); the linear position of `(H1, H2)` in this sequence
is the source's `H2 + H1*(2*_nHLA-H1-1)/2`. -/
def pairIndices (n : ℕ) : List (ℕ × ℕ) :=
  (List.range n).bind (fun h1 => ((List.range n).filter (fun h2 => h1 ≤ h2)).map
    (fun h2 => (h1, h2)))

/-- Diagonal class-pair mass: sum over unordered haplotype pairs within one
class of `FREQ_MUTANT((i1 != i2 ? 2 : 1) * f1 * f2, HamDist)`. -/
def diagProb (len : ℕ) (G : TGenotype) : List THaplotype → ℚ
  | [] => 0
  | h :: t =>
    FREQ_MUTANT (h.Frequency * h.Frequency) (hamDist len h.Packed h.Packed G) +
      (t.map (fun h2 =>
        FREQ_MUTANT (2 * h.Frequency * h2.Frequency)
          (hamDist len h.Packed h2.Packed G))).sum +
      diagProb len G t

/-- Off-diagonal class-pair mass: sum over haplotype pairs, one from each
class, of `FREQ_MUTANT(2 * f1 * f2, HamDist)` (the batch-of-eight path is
elementwise identical to the scalar path). -/
def offDiagProb (len : ℕ) (G : TGenotype) (L1 L2 : List THaplotype) : ℚ :=
  (L1.map (fun h1 =>
    (L2.map (fun h2 =>
      FREQ_MUTANT (2 * h1.Frequency * h2.Frequency)
        (hamDist len h1.Packed h2.Packed G))).sum)).sum

/-- Class-pair probability mass for one `(h1, h2)` entry. -/
def classPairProb (len : ℕ) (G : TGenotype) (Haplo : List (List THaplotype))
    (p : ℕ × ℕ) : ℚ :=
  if p.1 = p.2 then diagProb len G (Haplo.getD p.1 [])
  else offDiagProb len G (Haplo.getD p.1 []) (Haplo.getD p.2 [])

/-- The unnormalized posterior table of `CAlg_Prediction::PredictPostProb`
(and the on-the-fly products of `_PredBestGuess` / `_PredPostProb`). -/
def rawPostProb (len : ℕ) (G : TGenotype) (Haplo : List (List THaplotype)) : List ℚ :=
  (pairIndices Haplo.length).map (classPairProb len G Haplo)

/-- `CAlg_Prediction::PredictPostProb`: the raw table normalized by
`sum = 1.0 / sum` and a final multiply. -/
def PredictPostProb (len : ℕ) (G : TGenotype) (Haplo : List (List THaplotype)) :
    List ℚ :=
  let t := rawPostProb len G Haplo
  t.map (· * (1 / t.sum))

/-- The best-guess scan shared by `BestGuess`, `BestGuessEnsemble` and
`_PredBestGuess`: walk the class pairs with their probabilities starting from
`(NA, NA)` and `max = 0`, updating on every strict increase. -/
def bestGuessOnTable (n : ℕ) (table : List ℚ) : THLAType :=
  (((pairIndices n).zip table).foldl
    (fun acc pq =>
      if acc.2 < pq.2 then (⟨(pq.1.1 : ℤ), (pq.1.2 : ℤ)⟩, pq.2) else acc)
    (⟨NA_INTEGER, NA_INTEGER⟩, 0)).1

/-- `CAlg_Prediction::_PredBestGuess(Haplo, Geno)`: argmax of the same
unnormalized masses, computed in the same order. -/
def PredBestGuess (len : ℕ) (G : TGenotype) (Haplo : List (List THaplotype)) :
    THLAType :=
  bestGuessOnTable Haplo.length (rawPostProb len G Haplo)

/-! ## `CVariableSelection::_OutOfBagAccuracy` -/

/-- `CVariableSelection::_OutOfBagAccuracy(Haplo)`: over samples with
non-positive bootstrap count, sum `Compare(_PredBestGuess(Haplo, geno), truth)`
and 2 per sample; return `CorrectCnt/TotalCnt`, or 1 when no sample is out of
bag. -/
def OutOfBagAccuracy (len : ℕ) (Haplo : List (List THaplotype))
    (samples : List (TGenotype × THLAType)) : ℚ :=
  let acc := samples.foldl (fun (a : ℕ × ℕ) s =>
    if s.1.BootstrapCount ≤ 0 then
      (a.1 + CompareHLA (PredBestGuess len s.1 Haplo) s.2, a.2 + 2)
    else a) (0, 0)
  if 0 < acc.2 then (acc.1 : ℚ) / (acc.2 : ℚ) else 1

/-- C10: when no sample has bootstrap count ≤ 0 (empty out-of-bag set, e.g. a
full-sample classifier with all weights 1), `_OutOfBagAccuracy` returns
exactly 1 — a default for the empty OOB set, not an evaluated score. -/
theorem C10_empty_oob_accuracy_one (len : ℕ) (Haplo : List (List THaplotype))
    (samples : List (TGenotype × THLAType))
    (hpos : ∀ s ∈ samples, 0 < s.1.BootstrapCount) :
    OutOfBagAccuracy len Haplo samples = 1 := by
  unfold OutOfBagAccuracy
  have hfold : samples.foldl (fun (a : ℕ × ℕ) s =>
      if s.1.BootstrapCount ≤ 0 then
        (a.1 + CompareHLA (PredBestGuess len s.1 Haplo) s.2, a.2 + 2)
      else a) (0, 0) = (0, 0) := by
    have hgen : ∀ init : ℕ × ℕ, samples.foldl (fun (a : ℕ × ℕ) s =>
        if s.1.BootstrapCount ≤ 0 then
          (a.1 + CompareHLA (PredBestGuess len s.1 Haplo) s.2, a.2 + 2)
        else a) init = init := by
      induction samples with
      | nil => intro init; rfl
      | cons s rest ih =>
        intro init
        rw [List.foldl_cons, if_neg]
        · exact ih (fun x hx => hpos x (List.mem_cons_of_mem s hx)) init
        · have := hpos s (List.mem_cons_self s rest)
          omega
    exact hgen (0, 0)
  rw [hfold]
  norm_num

/-- Witness for C10: one in-bag sample (bootstrap count 1) — accuracy 1
without any prediction being evaluated. -/
theorem C10_witness :
    OutOfBagAccuracy 0 [] [(⟨0, 0, 0, 1⟩, ⟨0, 0⟩)] = 1 :=
  C10_empty_oob_accuracy_one 0 [] [(⟨0, 0, 0, 1⟩, ⟨0, 0⟩)] (by decide)

/-! ## Ensemble prediction (`CAttrBag_Model::PredictHLA` / `_PredictHLA`) -/

/-- One trained classifier: its selected marker indices and fitted haplotype
list (class-indexed). -/
structure TClassifier where
  SNPIndex : List ℕ
  Haplo : List (List THaplotype)

/-- `CAttrBag_Model::_GetSNPWeights`: per-marker ensemble usage count
(`OutWeight[idx]++` for every classifier occurrence). -/
def GetSNPWeights (classifiers : List TClassifier) : ℕ → ℕ :=
  fun k => (classifiers.map (fun c => c.SNPIndex.count k)).sum

/-- `TGenotype::IntToSNP` lookup table `P1` (allele-1 plane bit per genotype). -/
def snpP1 (g : ℤ) : ℕ := if g = 1 ∨ g = 2 then 1 else 0

/-- `IntToSNP` lookup table `P2`. -/
def snpP2 (g : ℤ) : ℕ := if g = 2 then 1 else 0

/-- `IntToSNP` lookup table `PM` (is-called plane; out-of-range values encode
"missing"). -/
def snpPM (g : ℤ) : ℕ := if 0 ≤ g ∧ g ≤ 2 then 1 else 0

/-- `TGenotype::IntToSNP(Length, InBase, Index)`: pack
`InBase[Index[j]]` into bit `j` of the three planes. -/
def IntToSNP (geno : ℕ → ℤ) (idx : List ℕ) : TGenotype :=
  { PackedSNP1 := (idx.enum.map (fun p => snpP1 (geno p.2) * 2 ^ p.1)).sum
    PackedSNP2 := (idx.enum.map (fun p => snpP2 (geno p.2) * 2 ^ p.1)).sum
    PackedMissing := (idx.enum.map (fun p => snpPM (geno p.2) * 2 ^ p.1)).sum
    BootstrapCount := 0 }

/-- `CAlg_Prediction::AddProbToSum(weight)`: if the weight is positive, add
`weight ×` the classifier's table into the running sum and accumulate the
weight. -/
def AddProbToSum (acc : List ℚ × ℚ) (post : List ℚ) (weight : ℚ) : List ℚ × ℚ :=
  if 0 < weight then (List.zipWith (fun s p => s + p * weight) acc.1 post, acc.2 + weight)
  else acc

/-- The majority-vote unit table: `InitPostProbBuffer()` (all zeros) followed
by `IndexPostProb(pd.Allele1, pd.Allele2) = 1.0`; the source's linear index
after the `H1 > H2` swap addresses exactly the `(min, max)` entry of
`pairIndices`. -/
def unitTableAt (n : ℕ) (a1 a2 : ℤ) : List ℚ :=
  (pairIndices n).map (fun p =>
    if (p.1 : ℤ) = min a1 a2 ∧ (p.2 : ℤ) = max a1 a2 then 1 else 0)

/-- The per-classifier body of `CAttrBag_Model::_PredictHLA`: compute the
called-weight fraction, skip the classifier when no selected marker is called
(`nWeight == 0`), otherwise add its posterior table (vote method 1) or its
best-guess unit vote (vote method 2) into the running sum. -/
def predictHLAStep (weights : ℕ → ℕ) (geno : ℕ → ℤ) (vote_method : ℕ)
    (acc : List ℚ × ℚ) (c : TClassifier) : List ℚ × ℚ :=
  let SumWeight := (c.SNPIndex.map weights).sum
  let nWeight := ((c.SNPIndex.filter (fun k => decide (0 ≤ geno k ∧ geno k ≤ 2))).map
    weights).sum
  if 0 < nWeight then
    let G := IntToSNP geno c.SNPIndex
    let post := PredictPostProb c.SNPIndex.length G c.Haplo
    if vote_method = 1 then
      AddProbToSum acc post ((nWeight : ℚ) / (SumWeight : ℚ))
    else if vote_method = 2 then
      let pd := bestGuessOnTable c.Haplo.length post
      if pd.Allele1 ≠ NA_INTEGER ∧ pd.Allele2 ≠ NA_INTEGER then
        AddProbToSum acc (unitTableAt c.Haplo.length pd.Allele1 pd.Allele2) 1
      else acc
    else acc
  else acc

/-- `CAttrBag_Model::_PredictHLA(geno, weights, vote_method)` for one query
sample: fold the classifiers over a zeroed sum buffer, then
`NormalizeSumPostProb` (rescale by `1/_Sum_Weight` when positive). -/
def PredictHLAOne (nHLA : ℕ) (classifiers : List TClassifier) (weights : ℕ → ℕ)
    (geno : ℕ → ℤ) (vote_method : ℕ) : List ℚ × ℚ :=
  classifiers.foldl (predictHLAStep weights geno vote_method)
    (List.replicate (nHLA * (nHLA + 1) / 2) 0, 0)

/-- `NormalizeSumPostProb`: rescale by `1/_Sum_Weight` when it is positive. -/
def NormalizeSumPostProb (r : List ℚ × ℚ) : List ℚ :=
  if 0 < r.2 then r.1.map (· * (1 / r.2)) else r.1

/-- Linear pair index `H2 + H1*(2*n - H1 - 1)/2` (after the `H1 > H2` swap)
used by `IndexSumPostProb`. -/
def pairIndexOf (n : ℕ) (a1 a2 : ℤ) : ℕ :=
  (min a1 a2 * (2 * (n : ℤ) - min a1 a2 - 1) / 2 + max a1 a2).toNat

/-- `CAttrBag_Model::PredictHLA` for one query sample: the ensemble best
guess, its confidence (`IndexSumPostProb` at the best guess, or 0 on no call),
and the normalized summed table. -/
def PredictHLA (nHLA : ℕ) (classifiers : List TClassifier) (geno : ℕ → ℤ)
    (vote_method : ℕ) : THLAType × ℚ × List ℚ :=
  let r := PredictHLAOne nHLA classifiers (GetSNPWeights classifiers) geno vote_method
  let sumTable := NormalizeSumPostProb r
  let HLA := bestGuessOnTable nHLA sumTable
  let maxProb := if HLA.Allele1 ≠ NA_INTEGER ∧ HLA.Allele2 ≠ NA_INTEGER then
    sumTable.getD (pairIndexOf nHLA HLA.Allele1 HLA.Allele2) 0 else 0
  (HLA, maxProb, sumTable)

theorem bestGuessOnTable_zeros (n m : ℕ) :
    bestGuessOnTable n (List.replicate m 0) = ⟨NA_INTEGER, NA_INTEGER⟩ := by
  unfold bestGuessOnTable
  have hz : ∀ x ∈ (pairIndices n).zip (List.replicate m 0), x.2 = (0 : ℚ) := by
    intro x hx
    have := List.of_mem_zip hx
    exact List.eq_of_mem_replicate this.2
  have hfold : ∀ l : List ((ℕ × ℕ) × ℚ), (∀ x ∈ l, x.2 = (0 : ℚ)) →
      l.foldl (fun acc pq =>
        if acc.2 < pq.2 then ((⟨(pq.1.1 : ℤ), (pq.1.2 : ℤ)⟩ : THLAType), pq.2) else acc)
        (⟨NA_INTEGER, NA_INTEGER⟩, 0) = (⟨NA_INTEGER, NA_INTEGER⟩, 0) := by
    intro l
    induction l with
    | nil => intro _; rfl
    | cons x rest ih =>
      intro hall
      rw [List.foldl_cons, if_neg]
      · exact ih (fun y hy => hall y (List.mem_cons_of_mem x hy))
      · rw [hall x (List.mem_cons_self x rest)]
        simp
  rw [hfold _ hz]

theorem predictHLAStep_skip (weights : ℕ → ℕ) (geno : ℕ → ℤ) (vm : ℕ)
    (acc : List ℚ × ℚ) (c : TClassifier)
    (hmiss : ∀ k ∈ c.SNPIndex, ¬(0 ≤ geno k ∧ geno k ≤ 2)) :
    predictHLAStep weights geno vm acc c = acc := by
  unfold predictHLAStep
  have hfil : c.SNPIndex.filter (fun k => decide (0 ≤ geno k ∧ geno k ≤ 2)) = [] := by
    rw [List.filter_eq_nil_iff]
    intro k hk
    simpa using hmiss k hk
  rw [hfil]
  simp

/-- C9: for a query sample whose genotype is uncalled at every marker of every
classifier, every classifier is skipped (`nWeight == 0`), the summed posterior
table stays all-zero, the ensemble best guess stays `(NA, NA)`, and the
reported confidence is 0. -/
theorem C9_all_missing_predicts_NA (nHLA : ℕ) (classifiers : List TClassifier)
    (geno : ℕ → ℤ) (vm : ℕ)
    (hmiss : ∀ c ∈ classifiers, ∀ k ∈ c.SNPIndex, ¬(0 ≤ geno k ∧ geno k ≤ 2)) :
    PredictHLAOne nHLA classifiers (GetSNPWeights classifiers) geno vm =
      (List.replicate (nHLA * (nHLA + 1) / 2) 0, 0) ∧
    (PredictHLA nHLA classifiers geno vm).1 = ⟨NA_INTEGER, NA_INTEGER⟩ ∧
    (PredictHLA nHLA classifiers geno vm).2.1 = 0 := by
  have hone : PredictHLAOne nHLA classifiers (GetSNPWeights classifiers) geno vm =
      (List.replicate (nHLA * (nHLA + 1) / 2) 0, 0) := by
    unfold PredictHLAOne
    have hgen : ∀ (w : ℕ → ℕ) (cls : List TClassifier),
        (∀ c ∈ cls, ∀ k ∈ c.SNPIndex, ¬(0 ≤ geno k ∧ geno k ≤ 2)) →
        ∀ init : List ℚ × ℚ,
          cls.foldl (predictHLAStep w geno vm) init = init := by
      intro w cls
      induction cls with
      | nil => intro _ init; rfl
      | cons c rest ih =>
        intro hall init
        rw [List.foldl_cons,
          predictHLAStep_skip _ _ _ _ _ (hall c (List.mem_cons_self c rest))]
        exact ih (fun x hx => hall x (List.mem_cons_of_mem c hx)) init
    exact hgen _ _ hmiss _
  refine ⟨hone, ?_, ?_⟩
  · unfold PredictHLA
    rw [hone]
    simp only [NormalizeSumPostProb, lt_irrefl (0 : ℚ), if_false]
    rw [bestGuessOnTable_zeros]
  · unfold PredictHLA
    rw [hone]
    simp only [NormalizeSumPostProb, lt_irrefl (0 : ℚ), if_false]
    rw [bestGuessOnTable_zeros]
    simp

/-- Witness for C9: one classifier over marker 0, a query genotype that is
uncalled everywhere (value −1), posterior-averaging vote mode. -/
theorem C9_witness :
    PredictHLAOne 2 [⟨[0], [[⟨0, 1, 0⟩], [⟨1, 0, 0⟩]]⟩]
        (GetSNPWeights [⟨[0], [[⟨0, 1, 0⟩], [⟨1, 0, 0⟩]]⟩]) (fun _ => -1) 1 =
      (List.replicate 3 0, 0) ∧
    (PredictHLA 2 [⟨[0], [[⟨0, 1, 0⟩], [⟨1, 0, 0⟩]]⟩] (fun _ => -1) 1).1 =
      ⟨NA_INTEGER, NA_INTEGER⟩ ∧
    (PredictHLA 2 [⟨[0], [[⟨0, 1, 0⟩], [⟨1, 0, 0⟩]]⟩] (fun _ => -1) 1).2.1 = 0 :=
  C9_all_missing_predicts_NA 2 [⟨[0], [[⟨0, 1, 0⟩], [⟨1, 0, 0⟩]]⟩] (fun _ => -1) 1
    (by decide)

/-! ## `CAlg_EM::PrepareHaplotypes` -/

/-- All ordered pairs, one haplotype from each of two distinct candidate
classes, in the source's iteration order (`p1` outer over the first class,
`p2` inner over the second). -/
def allPairsHet (L1 L2 : List THaplotype) : List (THaplotype × THaplotype) :=
  L1.bind (fun h1 => L2.map (fun h2 => (h1, h2)))

/-- All unordered pairs within one class (`p2` starts at `p1`, so `(i, j)`
with `i ≤ j`, self-pairs included), in the source's iteration order. -/
def allPairsHom : List THaplotype → List (THaplotype × THaplotype)
  | [] => []
  | h :: t => (h :: t).map (fun h2 => (h, h2)) ++ allPairsHom t

/-- Distance of a haplotype pair to the genotype at the current length. -/
def pairDist (len : ℕ) (G : TGenotype) (p : THaplotype × THaplotype) : ℕ :=
  hamDist len p.1.Packed p.2.Packed G

/-- The per-sample pair selection of `CAlg_EM::PrepareHaplotypes`: the first
pass pushes every distance-0 pair while tracking
`MinDiff` (initialized to `GenoList.Num_SNP * 4`); if `MinDiff > 0` a second
pass appends every pair at distance `MinDiff`. -/
def preparePairList (len : ℕ) (G : TGenotype)
    (pairs : List (THaplotype × THaplotype)) : List (THaplotype × THaplotype) :=
  let MinDiff := (pairs.map (pairDist len G)).foldl min (len * 4)
  let zeros := pairs.filter (fun p => decide (pairDist len G p = 0))
  if 0 < MinDiff then
    zeros ++ pairs.filter (fun p => decide (pairDist len G p = MinDiff))
  else zeros

/-- The candidate pair set of one sample: ordered cross-class pairs when its
two candidate classes differ, unordered within-class pairs when they agree. -/
def samplePairSet (A1 A2 : ℕ) (NextHaplo : List (List THaplotype)) :
    List (THaplotype × THaplotype) :=
  if A1 ≠ A2 then allPairsHet (NextHaplo.getD A1 []) (NextHaplo.getD A2 [])
  else allPairsHom (NextHaplo.getD A1 [])

/-- One sample's HaploPair list as built by `CAlg_EM::PrepareHaplotypes`
(for a sample with positive bootstrap count). -/
def PrepareHaplotypesSample (len : ℕ) (G : TGenotype) (A1 A2 : ℕ)
    (NextHaplo : List (List THaplotype)) : List (THaplotype × THaplotype) :=
  preparePairList len G (samplePairSet A1 A2 NextHaplo)

theorem foldl_min_le_init (l : List ℕ) : ∀ init : ℕ, l.foldl min init ≤ init := by
  induction l with
  | nil => intro init; simp
  | cons x t ih =>
    intro init
    rw [List.foldl_cons]
    exact le_trans (ih (min init x)) (min_le_left _ _)

theorem foldl_min_le_mem (l : List ℕ) : ∀ init : ℕ, ∀ x ∈ l, l.foldl min init ≤ x := by
  induction l with
  | nil => intro _ x hx; exact absurd hx (List.not_mem_nil x)
  | cons y t ih =>
    intro init x hx
    rw [List.foldl_cons]
    rcases List.mem_cons.mp hx with h | h
    · subst h
      exact le_trans (foldl_min_le_init t _) (min_le_right _ _)
    · exact ih _ x h

theorem foldl_min_mem (l : List ℕ) : ∀ init : ℕ,
    l.foldl min init = init ∨ l.foldl min init ∈ l := by
  induction l with
  | nil => intro _; left; rfl
  | cons y t ih =>
    intro init
    rw [List.foldl_cons]
    rcases ih (min init y) with h | h
    · rcases le_total init y with hle | hle
      · left
        rw [h, min_eq_left hle]
      · right
        rw [h, min_eq_right hle]
        exact List.mem_cons_self y t
    · right
      exact List.mem_cons_of_mem y h

theorem hamRec_le (len : ℕ) : ∀ h1 h2 s1 s2 m : ℕ,
    hamRec len h1 h2 s1 s2 m ≤ 2 * len := by
  induction len with
  | zero => intro h1 h2 s1 s2 m; rw [hamRec]
  | succ n ih =>
    intro h1 h2 s1 s2 m
    rw [hamRec]
    have hb : hamBit (h1 % 2) (h2 % 2) (s1 % 2) (s2 % 2) (m % 2) ≤ 2 := by
      rcases Nat.mod_two_eq_zero_or_one h1 with p1 | p1 <;>
        rcases Nat.mod_two_eq_zero_or_one h2 with p2 | p2 <;>
        rcases Nat.mod_two_eq_zero_or_one s1 with q1 | q1 <;>
        rcases Nat.mod_two_eq_zero_or_one s2 with q2 | q2 <;>
        rcases Nat.mod_two_eq_zero_or_one m with r | r <;>
        rw [p1, p2, q1, q2, r] <;> decide
    have := ih (h1 / 2) (h2 / 2) (s1 / 2) (s2 / 2) (m / 2)
    omega

theorem hamDist_le (len : ℕ) (H1 H2 : ℕ) (G : TGenotype) :
    hamDist len H1 H2 G ≤ 2 * len := by
  rw [hamDist_eq_hamRec]
  exact hamRec_le len H1 H2 G.PackedSNP1 G.PackedSNP2 G.PackedMissing

theorem preparePairList_spec (len : ℕ) (G : TGenotype)
    (pairs : List (THaplotype × THaplotype)) (hne : pairs ≠ []) :
    ((∃ p ∈ pairs, pairDist len G p = 0) →
      preparePairList len G pairs =
        pairs.filter (fun p => decide (pairDist len G p = 0))) ∧
    ((∀ p ∈ pairs, pairDist len G p ≠ 0) →
      preparePairList len G pairs =
        pairs.filter (fun p => decide (pairDist len G p =
          (pairs.map (pairDist len G)).foldl min (len * 4))) ∧
      (∀ q ∈ pairs, (pairs.map (pairDist len G)).foldl min (len * 4) ≤ pairDist len G q) ∧
      (∃ q ∈ pairs, pairDist len G q =
        (pairs.map (pairDist len G)).foldl min (len * 4))) ∧
    preparePairList len G pairs ≠ [] := by
  have hlow : ∀ q ∈ pairs, (pairs.map (pairDist len G)).foldl min (len * 4) ≤
      pairDist len G q := by
    intro q hq
    exact foldl_min_le_mem _ _ _ (List.mem_map_of_mem (pairDist len G) hq)
  by_cases hzero : ∃ p ∈ pairs, pairDist len G p = 0
  · obtain ⟨p, hp, hp0⟩ := hzero
    have hm0 : (pairs.map (pairDist len G)).foldl min (len * 4) = 0 := by
      have := hlow p hp
      omega
    have hres : preparePairList len G pairs =
        pairs.filter (fun p => decide (pairDist len G p = 0)) := by
      unfold preparePairList
      rw [hm0]
      simp
    refine ⟨fun _ => hres, fun hno => absurd hp0 (hno p hp), ?_⟩
    rw [hres]
    have hpmem : p ∈ pairs.filter (fun p => decide (pairDist len G p = 0)) :=
      List.mem_filter.mpr ⟨hp, by simp [hp0]⟩
    exact List.ne_nil_of_mem hpmem
  · push_neg at hzero
    obtain ⟨p0, hp0⟩ := List.exists_mem_of_ne_nil pairs hne
    have hlen : 0 < len := by
      have h1 := hzero p0 hp0
      have h2 := hamDist_le len p0.1.Packed p0.2.Packed G
      unfold pairDist at h1
      by_contra hcon
      push_neg at hcon
      interval_cases len
      omega
    have hmmem : (pairs.map (pairDist len G)).foldl min (len * 4) ∈
        pairs.map (pairDist len G) := by
      rcases foldl_min_mem (pairs.map (pairDist len G)) (len * 4) with h | h
      · exfalso
        have hle := hlow p0 hp0
        have hub : pairDist len G p0 ≤ 2 * len := hamDist_le len _ _ G
        omega
      · exact h
    obtain ⟨q, hq, hqd⟩ := List.mem_map.mp hmmem
    have hmpos : 0 < (pairs.map (pairDist len G)).foldl min (len * 4) := by
      have := hzero q hq
      omega
    have hres : preparePairList len G pairs =
        pairs.filter (fun p => decide (pairDist len G p =
          (pairs.map (pairDist len G)).foldl min (len * 4))) := by
      unfold preparePairList
      rw [if_pos hmpos]
      have hz : pairs.filter (fun p => decide (pairDist len G p = 0)) = [] := by
        rw [List.filter_eq_nil_iff]
        intro p hp
        simpa using hzero p hp
      rw [hz, List.nil_append]
    refine ⟨fun hex => absurd hex (by push_neg; exact hzero),
      fun _ => ⟨hres, hlow, q, hq, hqd⟩, ?_⟩
    rw [hres]
    have hqmem : q ∈ pairs.filter (fun p => decide (pairDist len G p =
        (pairs.map (pairDist len G)).foldl min (len * 4))) :=
      List.mem_filter.mpr ⟨hq, by simp [hqd]⟩
    exact List.ne_nil_of_mem hqmem

theorem allPairsHet_ne_nil (L1 L2 : List THaplotype) (h1 : L1 ≠ []) (h2 : L2 ≠ []) :
    allPairsHet L1 L2 ≠ [] := by
  obtain ⟨a, ha⟩ := List.exists_mem_of_ne_nil L1 h1
  obtain ⟨b, hb⟩ := List.exists_mem_of_ne_nil L2 h2
  have : (a, b) ∈ allPairsHet L1 L2 := by
    unfold allPairsHet
    rw [List.mem_bind]
    exact ⟨a, ha, List.mem_map_of_mem _ hb⟩
  exact List.ne_nil_of_mem this

theorem allPairsHom_ne_nil (L : List THaplotype) (h : L ≠ []) :
    allPairsHom L ≠ [] := by
  rcases L with _ | ⟨a, t⟩
  · exact absurd rfl h
  · rw [allPairsHom]
    simp

/-- C2: for every sample with positive bootstrap count whose candidate class
haplotype lists are nonempty, the HaploPair list built by `PrepareHaplotypes`
is exactly the distance-0 pairs of its candidate pair set when any exist;
otherwise it is exactly the pairs attaining the minimum observed distance
(the fold value, which lower-bounds and is attained by the set), and in
either case the list is nonempty. -/
theorem C2_prepareHaplotypes_pair_selection (len : ℕ) (G : TGenotype) (A1 A2 : ℕ)
    (NextHaplo : List (List THaplotype))
    (h1 : NextHaplo.getD A1 [] ≠ []) (h2 : NextHaplo.getD A2 [] ≠ []) :
    ((∃ p ∈ samplePairSet A1 A2 NextHaplo, pairDist len G p = 0) →
      PrepareHaplotypesSample len G A1 A2 NextHaplo =
        (samplePairSet A1 A2 NextHaplo).filter
          (fun p => decide (pairDist len G p = 0))) ∧
    ((∀ p ∈ samplePairSet A1 A2 NextHaplo, pairDist len G p ≠ 0) →
      PrepareHaplotypesSample len G A1 A2 NextHaplo =
        (samplePairSet A1 A2 NextHaplo).filter
          (fun p => decide (pairDist len G p =
            ((samplePairSet A1 A2 NextHaplo).map (pairDist len G)).foldl min (len * 4))) ∧
      (∀ q ∈ samplePairSet A1 A2 NextHaplo,
        ((samplePairSet A1 A2 NextHaplo).map (pairDist len G)).foldl min (len * 4) ≤
          pairDist len G q) ∧
      (∃ q ∈ samplePairSet A1 A2 NextHaplo, pairDist len G q =
        ((samplePairSet A1 A2 NextHaplo).map (pairDist len G)).foldl min (len * 4))) ∧
    PrepareHaplotypesSample len G A1 A2 NextHaplo ≠ [] := by
  have hne : samplePairSet A1 A2 NextHaplo ≠ [] := by
    unfold samplePairSet
    by_cases hA : A1 ≠ A2
    · rw [if_pos hA]
      exact allPairsHet_ne_nil _ _ h1 h2
    · rw [if_neg hA]
      exact allPairsHom_ne_nil _ h1
  exact preparePairList_spec len G (samplePairSet A1 A2 NextHaplo) hne

/-- Witness for C2: one haplotype per class (`0` and `1` at the single
marker), a genotype calling value 1 at that marker; the distance-0 pair is the
cross pair. -/
theorem C2_witness :
    ((∃ p ∈ samplePairSet 0 1 [[⟨0, 1, 0⟩], [⟨1, 1, 0⟩]],
        pairDist 1 ⟨1, 0, 1, 0⟩ p = 0) →
      PrepareHaplotypesSample 1 ⟨1, 0, 1, 0⟩ 0 1 [[⟨0, 1, 0⟩], [⟨1, 1, 0⟩]] =
        (samplePairSet 0 1 [[⟨0, 1, 0⟩], [⟨1, 1, 0⟩]]).filter
          (fun p => decide (pairDist 1 ⟨1, 0, 1, 0⟩ p = 0))) ∧
    ((∀ p ∈ samplePairSet 0 1 [[⟨0, 1, 0⟩], [⟨1, 1, 0⟩]],
        pairDist 1 ⟨1, 0, 1, 0⟩ p ≠ 0) →
      PrepareHaplotypesSample 1 ⟨1, 0, 1, 0⟩ 0 1 [[⟨0, 1, 0⟩], [⟨1, 1, 0⟩]] =
        (samplePairSet 0 1 [[⟨0, 1, 0⟩], [⟨1, 1, 0⟩]]).filter
          (fun p => decide (pairDist 1 ⟨1, 0, 1, 0⟩ p =
            ((samplePairSet 0 1 [[⟨0, 1, 0⟩], [⟨1, 1, 0⟩]]).map
              (pairDist 1 ⟨1, 0, 1, 0⟩)).foldl min (1 * 4))) ∧
      (∀ q ∈ samplePairSet 0 1 [[⟨0, 1, 0⟩], [⟨1, 1, 0⟩]],
        ((samplePairSet 0 1 [[⟨0, 1, 0⟩], [⟨1, 1, 0⟩]]).map
          (pairDist 1 ⟨1, 0, 1, 0⟩)).foldl min (1 * 4) ≤ pairDist 1 ⟨1, 0, 1, 0⟩ q) ∧
      (∃ q ∈ samplePairSet 0 1 [[⟨0, 1, 0⟩], [⟨1, 1, 0⟩]],
        pairDist 1 ⟨1, 0, 1, 0⟩ q =
          ((samplePairSet 0 1 [[⟨0, 1, 0⟩], [⟨1, 1, 0⟩]]).map
            (pairDist 1 ⟨1, 0, 1, 0⟩)).foldl min (1 * 4))) ∧
    PrepareHaplotypesSample 1 ⟨1, 0, 1, 0⟩ 0 1 [[⟨0, 1, 0⟩], [⟨1, 1, 0⟩]] ≠ [] :=
  C2_prepareHaplotypes_pair_selection 1 ⟨1, 0, 1, 0⟩ 0 1 [[⟨0, 1, 0⟩], [⟨1, 1, 0⟩]]
    (by decide) (by decide)

/-! ## `CSamplingWithoutReplace` and `CVariableSelection::Search`

The data-dependent trial evaluation of each candidate (EM + OOB accuracy +
in-bag deviance) and the injected uniform random source are oracle
parameters; the pool manipulation, the winner/pruning bookkeeping of the
candidate loop, and the accept/reject handling are translated literally.
Inside one round the pool `_IdxArray` is handled as `pre ++ suf` with
`pre = take (n - m)` and `suf` the drawn suffix of size `m = _m_try`;
`VarSampling[i]` is `suf[i]` (the source's `_IdxArray[n - _m_try + i]`). -/

/-- `std::swap(_IdxArray[i], _IdxArray[j])` on the list embedding. -/
def listSwap (l : List ℤ) (i j : ℕ) : List ℤ :=
  (l.set i (l.getD j 0)).set j (l.getD i 0)

/-- The swap loop of `CSamplingWithoutReplace::RandomSelect`: for
`i = 0 .. m_try-1`, swap position `RandomNum(n - i)` with position
`n - i - 1`; `r` is the remaining iteration count. -/
def selectLoop (g : ℕ → ℕ) (n : ℕ) : ℕ → ℕ → List ℤ → List ℤ
  | _, 0, l => l
  | i, r + 1, l =>
    selectLoop g n (i + 1) r (listSwap l (RandomNum (n - i) (g i)) (n - i - 1))

/-- `CSamplingWithoutReplace::RandomSelect(m_try)`: clamp `m_try` to the pool
size, and when `m_try < n` perform the partial random swaps; returns the
permuted pool and the selection size `_m_try`. -/
def RandomSelect (g : ℕ → ℕ) (mtry : ℕ) (l : List ℤ) : List ℤ × ℕ :=
  let n := l.length
  let m := if n < mtry then n else mtry
  (if m < n then selectLoop g n 0 m l else l, m)

/-- The mutable locals of the candidate `for` loop in
`CVariableSelection::Search` (the drawn suffix, in which pruning flags
entries with `-1`, plus `max_OutOfBagAcc`, `min_loss`, `min_i`). -/
structure CandState where
  suf : List ℤ
  max_OutOfBagAcc : ℚ
  min_loss : ℚ
  min_i : ℤ

/-- Oracles for one search round: the RNG raw draws, whether
`PrepareNewSNP` accepts candidate `i`, and the OOB accuracy / in-bag deviance
the trial at position `i` evaluates. -/
structure RoundOracle where
  rng : ℕ → ℕ
  prepOk : ℕ → Bool
  accOf : ℕ → ℚ
  lossOf : ℕ → ℚ

/-- Body of the candidate loop for position `i` (runs only when
`PrepareNewSNP` succeeded): evaluate the losses, update the round winner
(strictly higher accuracy wins; equal accuracy needs strictly lower
deviance), then optionally flag the entry for pruning (never the current
winner). -/
def candBody (O : RoundOracle) (gAcc gLoss : ℚ) (prune : Bool) (i : ℕ)
    (st : CandState) : CandState :=
  let acc := O.accOf i
  let loss := if st.max_OutOfBagAcc ≤ acc then O.lossOf i else 0
  let st1 :=
    if st.max_OutOfBagAcc < acc then
      { st with min_i := (i : ℤ), min_loss := loss, max_OutOfBagAcc := acc }
    else if acc = st.max_OutOfBagAcc then
      (if loss < st.min_loss then { st with min_i := (i : ℤ), min_loss := loss }
        else st)
    else st
  if prune then
    if acc < gAcc then { st1 with suf := st1.suf.set i (-1) }
    else if acc = gAcc then
      (if gLoss * (1 + PRUNE_RELTOL_LOGLIK) < loss ∧ st1.min_i ≠ (i : ℤ) then
        { st1 with suf := st1.suf.set i (-1) }
      else st1)
    else st1
  else st1

/-- The candidate `for` loop (`i` current position, `r` remaining). -/
def candLoop (O : RoundOracle) (gAcc gLoss : ℚ) (prune : Bool) :
    ℕ → ℕ → CandState → CandState
  | _, 0, st => st
  | i, r + 1, st =>
    candLoop O gAcc gLoss prune (i + 1) r
      (if O.prepOk i then candBody O gAcc gLoss prune i st else st)

/-- The state of `CVariableSelection::Search` across rounds. -/
structure SearchState where
  pool : List ℤ
  OutSNPIndex : List ℤ
  gAcc : ℚ
  gLoss : ℚ

/-- One round of the `while` loop of `CVariableSelection::Search`: draw the
candidate suffix, run the candidate loop, decide acceptance with the
`sign` gate; on acceptance push `VarSampling[min_i]`, then either flag it and
`RemoveFlag` (prune) or `Remove(min_i)`; on rejection `RemoveSelection`
(drop the whole drawn suffix). -/
def roundStep (O : RoundOracle) (prune : Bool) (mtry : ℕ) (st : SearchState) :
    SearchState :=
  let n := st.pool.length
  let rs := RandomSelect O.rng mtry st.pool
  let m := rs.2
  let pre := rs.1.take (n - m)
  let suf := rs.1.drop (n - m)
  let c := candLoop O st.gAcc st.gLoss prune 0 m ⟨suf, st.gAcc, st.gLoss, -1⟩
  if acceptSign c.max_OutOfBagAcc st.gAcc c.min_loss st.gLoss c.min_i then
    let mi := c.min_i.toNat
    let x := c.suf.getD mi 0
    { pool :=
        if prune then pre ++ (c.suf.set mi (-1)).filter (fun z => decide (0 ≤ z))
        else pre ++ c.suf.eraseIdx mi
      OutSNPIndex := st.OutSNPIndex ++ [x]
      gAcc := c.max_OutOfBagAcc
      gLoss := c.min_loss }
  else { st with pool := pre }

/-- The `while` loop of `CVariableSelection::Search`, fuel-indexed (each
executed round is driven by its own oracle): loop while the pool is nonempty
and fewer than `HIBAG_MAXNUM_SNP_IN_CLASSIFIER - 1` markers are selected
("reserve the last bit"). -/
def searchLoop (O : ℕ → RoundOracle) (prune : Bool) (mtry : ℕ) :
    ℕ → SearchState → SearchState
  | 0, st => st
  | fuel + 1, st =>
    if 0 < st.pool.length ∧
        st.OutSNPIndex.length < HIBAG_MAXNUM_SNP_IN_CLASSIFIER - 1 then
      searchLoop O prune mtry fuel (roundStep (O fuel) prune mtry st)
    else st

/-- `CVariableSelection::Search` from the initial full pool
(`CSamplingWithoutReplace::Init`: indices `0 .. nsnp-1`), empty selection,
`Global_Max_OutOfBagAcc = 0` and `Global_Min_Loss = 1e+30`. -/
def Search (O : ℕ → RoundOracle) (prune : Bool) (mtry nsnp fuel : ℕ) : SearchState :=
  searchLoop O prune mtry fuel
    ⟨(List.range nsnp).map (fun i : ℕ => (i : ℤ)), [], 0, 10 ^ 30⟩

/-! ### Permutation facts for `RandomSelect` -/

theorem randomNum_lt (n v : ℕ) (h : 0 < n) : RandomNum n v < n := by
  unfold RandomNum
  split_ifs <;> omega

theorem swapHead_perm : ∀ (t : List ℤ) (j : ℕ), j < t.length → ∀ a : ℤ,
    (t.getD j 0 :: t.set j a).Perm (a :: t)
  | [], j, hj => by simp at hj
  | b :: t, 0, _ => fun a => by
    simp only [List.getD_cons_zero, List.set_cons_zero]
    exact List.Perm.swap a b t
  | b :: t, j + 1, hj => fun a => by
    simp only [List.getD_cons_succ, List.set_cons_succ]
    exact ((List.Perm.swap b (t.getD j 0) (t.set j a)).trans
      (List.Perm.cons b (swapHead_perm t j (by simpa using hj) a))).trans
      (List.Perm.swap a b t)

theorem listSwap_perm : ∀ (l : List ℤ) (i j : ℕ), i < l.length → j < l.length →
    (listSwap l i j).Perm l
  | [], i, _, hi, _ => by simp at hi
  | a :: t, 0, 0, _, _ => by
    simp [listSwap]
  | a :: t, 0, j + 1, _, hj => by
    unfold listSwap
    simp only [List.getD_cons_succ, List.getD_cons_zero, List.set_cons_zero,
      List.set_cons_succ]
    exact swapHead_perm t j (by simpa using hj) a
  | a :: t, i + 1, 0, hi, _ => by
    unfold listSwap
    simp only [List.getD_cons_succ, List.getD_cons_zero, List.set_cons_zero,
      List.set_cons_succ]
    exact swapHead_perm t i (by simpa using hi) a
  | a :: t, i + 1, j + 1, hi, hj => by
    unfold listSwap
    simp only [List.getD_cons_succ, List.set_cons_succ]
    exact List.Perm.cons a
      (listSwap_perm t i j (by simpa using hi) (by simpa using hj))

theorem selectLoop_perm (g : ℕ → ℕ) (n : ℕ) :
    ∀ (r i : ℕ) (l : List ℤ), l.length = n → i + r ≤ n →
      (selectLoop g n i r l).Perm l := by
  intro r
  induction r with
  | zero => intro i l _ _; exact List.Perm.refl l
  | succ r ih =>
    intro i l hlen hir
    rw [selectLoop]
    have hin : i < n := by omega
    have hI : RandomNum (n - i) (g i) < n - i := randomNum_lt _ _ (by omega)
    have hswap : (listSwap l (RandomNum (n - i) (g i)) (n - i - 1)).Perm l :=
      listSwap_perm l _ _ (by omega) (by omega)
    have hlen2 : (listSwap l (RandomNum (n - i) (g i)) (n - i - 1)).length = n := by
      rw [hswap.length_eq, hlen]
    exact (ih (i + 1) _ hlen2 (by omega)).trans hswap

theorem randomSelect_perm (g : ℕ → ℕ) (mtry : ℕ) (l : List ℤ) :
    (RandomSelect g mtry l).1.Perm l ∧ (RandomSelect g mtry l).2 ≤ l.length := by
  unfold RandomSelect
  dsimp only
  by_cases hm : (if l.length < mtry then l.length else mtry) < l.length
  · rw [if_pos hm]
    refine ⟨selectLoop_perm g l.length _ 0 l rfl (by omega), ?_⟩
    split_ifs <;> omega
  · rw [if_neg hm]
    refine ⟨List.Perm.refl l, ?_⟩
    split_ifs <;> omega

/-! ### Candidate-loop invariant -/

/-- Pruning only overwrites entries with `-1`: elementwise, the working
suffix equals the original or is `-1`. -/
def MaskedRel (l l0 : List ℤ) : Prop :=
  List.Forall₂ (fun a b => a = b ∨ a = -1) l l0

theorem masked_refl (l : List ℤ) : MaskedRel l l :=
  List.forall₂_same.mpr (fun _ _ => Or.inl rfl)

theorem masked_set {l l0 : List ℤ} (h : MaskedRel l l0) :
    ∀ i : ℕ, MaskedRel (l.set i (-1)) l0 := by
  induction h with
  | nil => intro i; exact List.Forall₂.nil
  | @cons a b t t0 hab htail ih =>
    intro i
    rcases i with _ | i
    · exact List.Forall₂.cons (Or.inr rfl) htail
    · exact List.Forall₂.cons hab (ih i)

theorem masked_length {l l0 : List ℤ} (h : MaskedRel l l0) : l.length = l0.length :=
  List.Forall₂.length_eq h

theorem masked_filter_sublist {l l0 : List ℤ} (h : MaskedRel l l0)
    (hpos : ∀ x ∈ l0, 0 ≤ x) :
    (l.filter (fun z => decide (0 ≤ z))).Sublist l0 := by
  induction h with
  | nil => exact List.Sublist.refl []
  | @cons a b t t0 hab htail ih =>
    have hrest := ih (fun x hx => hpos x (List.mem_cons_of_mem b hx))
    rcases hab with hab | hab
    · subst hab
      rw [List.filter_cons]
      by_cases ha : (0 : ℤ) ≤ a
      · rw [if_pos (by simpa using ha)]
        exact List.Sublist.cons₂ a hrest
      · rw [if_neg (by simpa using ha)]
        exact List.Sublist.cons a hrest
    · subst hab
      rw [List.filter_cons, if_neg (by simp)]
      exact List.Sublist.cons b hrest

theorem masked_filter_not_mem {l l0 : List ℤ} (h : MaskedRel l l0)
    (hnd : l0.Nodup) (hpos : ∀ x ∈ l0, 0 ≤ x) :
    ∀ p : ℕ, p < l0.length → l.getD p 0 = -1 →
      l0.getD p 0 ∉ l.filter (fun z => decide (0 ≤ z)) := by
  induction h with
  | nil => intro p hp; simp at hp
  | @cons a b t t0 hab htail ih =>
    intro p hp hflag
    rcases p with _ | p
    · simp only [List.getD_cons_zero] at hflag ⊢
      subst hflag
      rw [List.filter_cons, if_neg (by simp)]
      intro hmem
      have hsub := masked_filter_sublist htail
        (fun x hx => hpos x (List.mem_cons_of_mem b hx))
      have : b ∈ t0 := hsub.subset hmem
      exact (List.nodup_cons.mp hnd).1 this
    · simp only [List.getD_cons_succ] at hflag ⊢
      have hrec := ih (List.nodup_cons.mp hnd).2
        (fun x hx => hpos x (List.mem_cons_of_mem b hx)) p (by simpa using hp) hflag
      rw [List.filter_cons]
      by_cases ha : (0 : ℤ) ≤ a
      · rw [if_pos (by simpa using ha)]
        intro hmem
        rcases List.mem_cons.mp hmem with hmem | hmem
        · have hx : t0.getD p 0 ∈ t0 := by
            have hp' : p < t0.length := by simpa using hp
            rw [List.getD_eq_getElem?_getD, List.getElem?_eq_getElem hp']
            exact List.getElem_mem hp'
          rcases hab with hab | hab
          · subst hab
            rw [hmem] at hx
            exact (List.nodup_cons.mp hnd).1 hx
          · rw [hab] at ha
            norm_num at ha
        · exact hrec hmem
      · rw [if_neg (by simpa using ha)]
        exact hrec

/-- Loop invariant of the candidate loop: the working suffix is the original
masked by `-1` flags, untouched at positions not yet visited; the running
accuracy dominates the global one; and the current winner, if any, is a
visited position whose entry is unflagged. -/
def CandInv (gAcc : ℚ) (orig : List ℤ) (i : ℕ) (st : CandState) : Prop :=
  MaskedRel st.suf orig ∧
  gAcc ≤ st.max_OutOfBagAcc ∧
  (st.min_i = -1 → st.max_OutOfBagAcc = gAcc) ∧
  (st.min_i ≠ -1 → 0 ≤ st.min_i ∧ st.min_i < (i : ℤ) ∧
    st.suf.getD st.min_i.toNat 0 = orig.getD st.min_i.toNat 0) ∧
  (∀ j : ℕ, i ≤ j → st.suf.getD j 0 = orig.getD j 0)

theorem getD_set_ne (l : List ℤ) (i j : ℕ) (v : ℤ) (h : i ≠ j) :
    (l.set i v).getD j 0 = l.getD j 0 := by
  rw [List.getD_eq_getElem?_getD, List.getD_eq_getElem?_getD,
    List.getElem?_set_ne h]

theorem candBody_inv (O : RoundOracle) (gAcc gLoss : ℚ) (prune : Bool) (i : ℕ)
    (orig : List ℤ) (st : CandState) (hinv : CandInv gAcc orig i st) :
    CandInv gAcc orig (i + 1) (candBody O gAcc gLoss prune i st) := by
  obtain ⟨hmask, hacc, hneg, hwin, huntouched⟩ := hinv
  have hmi_ne : st.min_i ≠ (i : ℤ) := by
    rcases eq_or_ne st.min_i (-1) with h | h
    · rw [h]
      omega
    · have := (hwin h).2.1
      omega
  unfold candBody
  dsimp only
  set acc := O.accOf i with hacc_def
  set loss := if st.max_OutOfBagAcc ≤ acc then O.lossOf i else 0 with hloss_def
  have hst1 : ∀ st1 : CandState, st1.suf = st.suf →
      gAcc ≤ st1.max_OutOfBagAcc →
      (st1.min_i = -1 → st1.max_OutOfBagAcc = gAcc) →
      (st1.min_i ≠ -1 → 0 ≤ st1.min_i ∧ st1.min_i < ((i : ℤ) + 1) ∧
        st1.suf.getD st1.min_i.toNat 0 = orig.getD st1.min_i.toNat 0) →
      (acc < gAcc → st1.min_i ≠ (i : ℤ)) →
      CandInv gAcc orig (i + 1)
        (if prune then
          if acc < gAcc then { st1 with suf := st1.suf.set i (-1) }
          else if acc = gAcc then
            (if gLoss * (1 + PRUNE_RELTOL_LOGLIK) < loss ∧ st1.min_i ≠ (i : ℤ) then
              { st1 with suf := st1.suf.set i (-1) }
            else st1)
          else st1
        else st1) := by
    intro st1 hsuf hacc1 hneg1 hwin1 hflagok
    have hkeep : CandInv gAcc orig (i + 1) st1 := by
      refine ⟨hsuf ▸ hmask, hacc1, hneg1, hwin1, ?_⟩
      intro j hj
      rw [hsuf]
      exact huntouched j (by omega)
    have hflag : st1.min_i ≠ (i : ℤ) →
        CandInv gAcc orig (i + 1) { st1 with suf := st1.suf.set i (-1) } := by
      intro hfl
      refine ⟨masked_set (hsuf ▸ hmask) i, hacc1, hneg1, ?_, ?_⟩
      · intro hne
        dsimp only at hne ⊢
        obtain ⟨h1, h2, h3⟩ := hwin1 hne
        refine ⟨h1, h2, ?_⟩
        rw [getD_set_ne _ _ _ _ (by omega), h3]
      · intro j hj
        dsimp only
        rw [getD_set_ne _ _ _ _ (by omega), hsuf]
        exact huntouched j (by omega)
    by_cases hprune : prune
    · rw [if_pos hprune]
      by_cases hlt : acc < gAcc
      · rw [if_pos hlt]
        exact hflag (hflagok hlt)
      · rw [if_neg hlt]
        by_cases heq : acc = gAcc
        · rw [if_pos heq]
          by_cases hflcond : gLoss * (1 + PRUNE_RELTOL_LOGLIK) < loss ∧
              st1.min_i ≠ (i : ℤ)
          · rw [if_pos hflcond]
            exact hflag hflcond.2
          · rw [if_neg hflcond]
            exact hkeep
        · rw [if_neg heq]
          exact hkeep
    · rw [if_neg (by simpa using hprune)]
      exact hkeep
  by_cases hA : st.max_OutOfBagAcc < acc
  · rw [if_pos hA]
    refine hst1 _ rfl (by linarith) (by intro h; simp at h) ?_
      (by intro hlt; linarith)
    intro _
    dsimp only
    refine ⟨by positivity, by omega, ?_⟩
    have htn : ((i : ℤ)).toNat = i := by omega
    rw [htn]
    exact huntouched i (le_refl i)
  · rw [if_neg hA]
    by_cases hB : acc = st.max_OutOfBagAcc
    · rw [if_pos hB]
      by_cases hB2 : loss < st.min_loss
      · rw [if_pos hB2]
        refine hst1 _ rfl hacc (by intro h; simp at h) ?_
          (by intro hlt; rw [hB] at hlt; linarith)
        intro _
        dsimp only
        refine ⟨by positivity, by omega, ?_⟩
        have htn : ((i : ℤ)).toNat = i := by omega
        rw [htn]
        exact huntouched i (le_refl i)
      · rw [if_neg hB2]
        refine hst1 _ rfl hacc hneg ?_ (fun _ => hmi_ne)
        intro hne
        obtain ⟨h1, h2, h3⟩ := hwin hne
        exact ⟨h1, by omega, h3⟩
    · rw [if_neg hB]
      refine hst1 _ rfl hacc hneg ?_ (fun _ => hmi_ne)
      intro hne
      obtain ⟨h1, h2, h3⟩ := hwin hne
      exact ⟨h1, by omega, h3⟩

theorem candInv_mono (gAcc : ℚ) (orig : List ℤ) (i : ℕ) (st : CandState)
    (h : CandInv gAcc orig i st) : CandInv gAcc orig (i + 1) st := by
  obtain ⟨h1, h2, h3, h4, h5⟩ := h
  refine ⟨h1, h2, h3, ?_, ?_⟩
  · intro hne
    obtain ⟨a, b, c⟩ := h4 hne
    exact ⟨a, by omega, c⟩
  · intro j hj
    exact h5 j (by omega)

theorem candLoop_inv (O : RoundOracle) (gAcc gLoss : ℚ) (prune : Bool)
    (orig : List ℤ) :
    ∀ (r i : ℕ) (st : CandState), CandInv gAcc orig i st →
      CandInv gAcc orig (i + r) (candLoop O gAcc gLoss prune i r st) := by
  intro r
  induction r with
  | zero =>
    intro i st h
    rw [candLoop, Nat.add_zero]
    exact h
  | succ r ih =>
    intro i st h
    rw [candLoop]
    have hst' : CandInv gAcc orig (i + 1)
        (if O.prepOk i then candBody O gAcc gLoss prune i st else st) := by
      by_cases hp : O.prepOk i
      · rw [if_pos hp]
        exact candBody_inv O gAcc gLoss prune i orig st h
      · rw [if_neg hp]
        exact candInv_mono gAcc orig i st h
    have hrec := ih (i + 1) _ hst'
    have heq : i + 1 + r = i + (r + 1) := by omega
    rwa [heq] at hrec

theorem candBody_suf_noprune (O : RoundOracle) (gAcc gLoss : ℚ) (i : ℕ)
    (st : CandState) : (candBody O gAcc gLoss false i st).suf = st.suf := by
  unfold candBody
  dsimp only
  rw [if_neg (by simp)]
  split_ifs <;> rfl

theorem candLoop_suf_noprune (O : RoundOracle) (gAcc gLoss : ℚ) :
    ∀ (r i : ℕ) (st : CandState),
      (candLoop O gAcc gLoss false i r st).suf = st.suf := by
  intro r
  induction r with
  | zero => intro i st; rw [candLoop]
  | succ r ih =>
    intro i st
    rw [candLoop, ih (i + 1)]
    by_cases hp : O.prepOk i
    · rw [if_pos hp]
      exact candBody_suf_noprune O gAcc gLoss i st
    · rw [if_neg hp]

/-! ### Round and loop invariant -/

theorem acceptSign_true_cases (a g l gl : ℚ) (mi : ℤ)
    (h : acceptSign a g l gl mi = true) : g < a ∨ (a = g ∧ 0 ≤ mi) := by
  unfold acceptSign at h
  split_ifs at h with h1 h2 h3
  · exact Or.inl h1
  · exact Or.inr ⟨h2, h3⟩

theorem getD_eq_getElem (l : List ℤ) (i : ℕ) (h : i < l.length) :
    l.getD i 0 = l[i] := by
  simp [List.getD_eq_getElem?_getD, List.getElem?_eq_getElem h]

theorem getD_set_self (l : List ℤ) (i : ℕ) (v : ℤ) (h : i < l.length) :
    (l.set i v).getD i 0 = v := by
  simp [List.getD_eq_getElem?_getD, List.getElem?_set_self h]

theorem nodup_not_mem_eraseIdx : ∀ (l : List ℤ) (i : ℕ), l.Nodup →
    (h : i < l.length) → l[i] ∉ l.eraseIdx i
  | a :: t, 0, hnd, _ => by
    simp only [List.eraseIdx, List.getElem_cons_zero]
    exact (List.nodup_cons.mp hnd).1
  | a :: t, i + 1, hnd, h => by
    simp only [List.eraseIdx, List.getElem_cons_succ]
    intro hmem
    have hib : i < t.length := by simpa using h
    rcases List.mem_cons.mp hmem with he | he
    · exact (List.nodup_cons.mp hnd).1 (he ▸ List.getElem_mem hib)
    · exact nodup_not_mem_eraseIdx t i (List.nodup_cons.mp hnd).2 hib he

/-- Invariant of the search loop: the selected markers are distinct, the pool
entries are distinct, non-negative, and disjoint from the selection. -/
def SearchInv (st : SearchState) : Prop :=
  st.OutSNPIndex.Nodup ∧ (∀ x ∈ st.pool, 0 ≤ x) ∧ st.pool.Nodup ∧
    (∀ x ∈ st.OutSNPIndex, x ∉ st.pool)

theorem roundStep_inv (O : RoundOracle) (prune : Bool) (mtry : ℕ)
    (st : SearchState) (hinv : SearchInv st) :
    SearchInv (roundStep O prune mtry st) ∧
      (roundStep O prune mtry st).OutSNPIndex.length ≤ st.OutSNPIndex.length + 1 := by
  obtain ⟨hsel, hpos, hnd, hdisj⟩ := hinv
  unfold roundStep
  dsimp only
  obtain ⟨hperm, hmle⟩ := randomSelect_perm O.rng mtry st.pool
  set pool1 := (RandomSelect O.rng mtry st.pool).1 with hpool1
  set m := (RandomSelect O.rng mtry st.pool).2 with hmdef
  set pre := pool1.take (st.pool.length - m) with hpredef
  set suf := pool1.drop (st.pool.length - m) with hsufdef
  have hsplit : pre ++ suf = pool1 := List.take_append_drop _ _
  have hlenp : pool1.length = st.pool.length := hperm.length_eq
  have hnd1 : pool1.Nodup := hperm.symm.nodup hnd
  have hpos1 : ∀ x ∈ pool1, 0 ≤ x := fun x hx => hpos x (hperm.mem_iff.mp hx)
  have hdisj1 : ∀ x ∈ st.OutSNPIndex, x ∉ pool1 :=
    fun x hx hmem => hdisj x hx (hperm.mem_iff.mp hmem)
  have hndps : (pre ++ suf).Nodup := by rw [hsplit]; exact hnd1
  have hsuflen : suf.length = m := by
    rw [hsufdef, List.length_drop, hlenp]
    omega
  have hpossuf : ∀ y ∈ suf, 0 ≤ y := by
    intro y hy
    apply hpos1
    rw [← hsplit]
    exact List.mem_append_right pre hy
  have hndsuf : suf.Nodup := hndps.of_append_right
  set c := candLoop O st.gAcc st.gLoss prune 0 m ⟨suf, st.gAcc, st.gLoss, -1⟩ with hcdef
  have hcinv : CandInv st.gAcc suf m c := by
    have h0 : CandInv st.gAcc suf 0 ⟨suf, st.gAcc, st.gLoss, -1⟩ := by
      refine ⟨masked_refl suf, le_refl _, fun _ => rfl, ?_, fun j _ => rfl⟩
      intro hne
      exact absurd rfl hne
    have hres := candLoop_inv O st.gAcc st.gLoss prune suf m 0 _ h0
    simpa using hres
  obtain ⟨hcm, hcacc, hcneg, hcwin, _⟩ := hcinv
  by_cases hsign : acceptSign c.max_OutOfBagAcc st.gAcc c.min_loss st.gLoss c.min_i = true
  · rw [if_pos hsign]
    have hmi : 0 ≤ c.min_i ∧ c.min_i < (m : ℤ) ∧
        c.suf.getD c.min_i.toNat 0 = suf.getD c.min_i.toNat 0 := by
      have hcase := acceptSign_true_cases _ _ _ _ _ hsign
      have hne : c.min_i ≠ -1 := by
        rcases hcase with hgt | ⟨_, hge⟩
        · intro hcon
          rw [hcneg hcon] at hgt
          exact lt_irrefl _ hgt
        · intro hcon
          rw [hcon] at hge
          norm_num at hge
      exact hcwin hne
    have hmilt : c.min_i.toNat < suf.length := by
      rw [hsuflen]
      omega
    have hclen : c.suf.length = suf.length := masked_length hcm
    have hxval : c.suf.getD c.min_i.toNat 0 = suf[c.min_i.toNat] := by
      rw [hmi.2.2, getD_eq_getElem suf _ hmilt]
    have hxmemsuf : c.suf.getD c.min_i.toNat 0 ∈ suf := by
      rw [hxval]
      exact List.getElem_mem hmilt
    have hxmem : c.suf.getD c.min_i.toNat 0 ∈ pool1 := by
      rw [← hsplit]
      exact List.mem_append_right pre hxmemsuf
    have hxnotpre : c.suf.getD c.min_i.toNat 0 ∉ pre := by
      intro hmem
      exact (List.disjoint_of_nodup_append hndps) hmem hxmemsuf
    have hxnotsel : c.suf.getD c.min_i.toNat 0 ∉ st.OutSNPIndex := by
      intro hmem
      exact hdisj1 _ hmem hxmem
    have hselnd : (st.OutSNPIndex ++ [c.suf.getD c.min_i.toNat 0]).Nodup := by
      rw [List.nodup_append]
      refine ⟨hsel, List.nodup_singleton _, ?_⟩
      intro a ha hax
      rw [List.mem_singleton] at hax
      rw [hax] at ha
      exact hxnotsel ha
    have hsellen : (st.OutSNPIndex ++ [c.suf.getD c.min_i.toNat 0]).length =
        st.OutSNPIndex.length + 1 := by
      simp
    have hx_eq_getD_suf : c.suf.getD c.min_i.toNat 0 = suf.getD c.min_i.toNat 0 :=
      hmi.2.2
    by_cases hprune : prune = true
    · rw [if_pos hprune]
      have hmask' : MaskedRel (c.suf.set c.min_i.toNat (-1)) suf :=
        masked_set hcm _
      have hfsub : ((c.suf.set c.min_i.toNat (-1)).filter
          (fun z => decide (0 ≤ z))).Sublist suf :=
        masked_filter_sublist hmask' hpossuf
      have hpool' : (pre ++ (c.suf.set c.min_i.toNat (-1)).filter
          (fun z => decide (0 ≤ z))).Sublist (pre ++ suf) :=
        hfsub.append_left pre
      have hndpool' := hndps.sublist hpool'
      have hsubmem : ∀ y ∈ pre ++ (c.suf.set c.min_i.toNat (-1)).filter
          (fun z => decide (0 ≤ z)), y ∈ pool1 := by
        intro y hy
        rw [← hsplit]
        exact hpool'.subset hy
      have hxnot : c.suf.getD c.min_i.toNat 0 ∉
          pre ++ (c.suf.set c.min_i.toNat (-1)).filter (fun z => decide (0 ≤ z)) := by
        intro hmem
        rcases List.mem_append.mp hmem with hmem | hmem
        · exact hxnotpre hmem
        · have hflag : (c.suf.set c.min_i.toNat (-1)).getD c.min_i.toNat 0 = -1 :=
            getD_set_self _ _ _ (by omega)
          have hnotm := masked_filter_not_mem hmask' hndsuf hpossuf
            c.min_i.toNat hmilt hflag
          rw [hx_eq_getD_suf] at hmem
          exact hnotm hmem
      refine ⟨⟨hselnd, ?_, hndpool', ?_⟩, ?_⟩
      · intro y hy
        exact hpos1 y (hsubmem y hy)
      · intro y hy
        rcases List.mem_append.mp hy with hy | hy
        · intro hmem
          exact hdisj1 y hy (hsubmem _ hmem)
        · rw [List.mem_singleton] at hy
          rw [hy]
          exact hxnot
      · rw [hsellen]
    · rw [if_neg hprune]
      have hpf : prune = false := by simpa using hprune
      have hcsuf : c.suf = suf := by
        rw [hcdef, hpf]
        exact candLoop_suf_noprune O st.gAcc st.gLoss m 0 _
      have herase : (c.suf.eraseIdx c.min_i.toNat).Sublist suf := by
        rw [hcsuf]
        exact List.eraseIdx_sublist suf c.min_i.toNat
      have hpool' : (pre ++ c.suf.eraseIdx c.min_i.toNat).Sublist (pre ++ suf) :=
        herase.append_left pre
      have hndpool' := hndps.sublist hpool'
      have hsubmem : ∀ y ∈ pre ++ c.suf.eraseIdx c.min_i.toNat, y ∈ pool1 := by
        intro y hy
        rw [← hsplit]
        exact hpool'.subset hy
      have hxnot : c.suf.getD c.min_i.toNat 0 ∉
          pre ++ c.suf.eraseIdx c.min_i.toNat := by
        intro hmem
        rcases List.mem_append.mp hmem with hmem | hmem
        · exact hxnotpre hmem
        · rw [hcsuf] at hmem
          rw [getD_eq_getElem suf _ hmilt] at hmem
          exact nodup_not_mem_eraseIdx suf c.min_i.toNat hndsuf hmilt hmem
      refine ⟨⟨hselnd, ?_, hndpool', ?_⟩, ?_⟩
      · intro y hy
        exact hpos1 y (hsubmem y hy)
      · intro y hy
        rcases List.mem_append.mp hy with hy | hy
        · intro hmem
          exact hdisj1 y hy (hsubmem _ hmem)
        · rw [List.mem_singleton] at hy
          rw [hy]
          exact hxnot
      · rw [hsellen]
  · rw [if_neg hsign]
    have hpresub : pre.Sublist pool1 := by
      rw [hpredef]
      exact List.take_sublist _ pool1
    refine ⟨⟨hsel, ?_, hnd1.sublist hpresub, ?_⟩, by dsimp only; omega⟩
    · intro y hy
      exact hpos1 y (hpresub.subset hy)
    · intro y hy hmem
      exact hdisj1 y hy (hpresub.subset hmem)

theorem searchLoop_inv (O : ℕ → RoundOracle) (prune : Bool) (mtry : ℕ) :
    ∀ (fuel : ℕ) (st : SearchState), SearchInv st →
      st.OutSNPIndex.length ≤ HIBAG_MAXNUM_SNP_IN_CLASSIFIER - 1 →
      SearchInv (searchLoop O prune mtry fuel st) ∧
        (searchLoop O prune mtry fuel st).OutSNPIndex.length ≤
          HIBAG_MAXNUM_SNP_IN_CLASSIFIER - 1 := by
  intro fuel
  induction fuel with
  | zero =>
    intro st hinv hlen
    rw [searchLoop]
    exact ⟨hinv, hlen⟩
  | succ fuel ih =>
    intro st hinv hlen
    rw [searchLoop]
    by_cases hguard : 0 < st.pool.length ∧
        st.OutSNPIndex.length < HIBAG_MAXNUM_SNP_IN_CLASSIFIER - 1
    · rw [if_pos hguard]
      obtain ⟨hinv', hlen'⟩ := roundStep_inv (O fuel) prune mtry st hinv
      exact ih _ hinv' (by omega)
    · rw [if_neg hguard]
      exact ⟨hinv, hlen⟩

/-- C5: for every run of the variable-selection search (any oracles for the
random source and the per-candidate trial evaluations, any `mtry`, pruning on
or off, any number of rounds), the output selected-marker sequence holds at
most `HIBAG_MAXNUM_SNP_IN_CLASSIFIER - 1` markers and contains no duplicate
marker index. -/
theorem C5_search_capacity_and_nodup (O : ℕ → RoundOracle) (prune : Bool)
    (mtry nsnp fuel : ℕ) :
    (Search O prune mtry nsnp fuel).OutSNPIndex.length ≤
        HIBAG_MAXNUM_SNP_IN_CLASSIFIER - 1 ∧
      (Search O prune mtry nsnp fuel).OutSNPIndex.Nodup := by
  have hinit : SearchInv ⟨(List.range nsnp).map (fun i : ℕ => (i : ℤ)), [], 0, 10 ^ 30⟩ := by
    refine ⟨List.nodup_nil, ?_, ?_, ?_⟩
    · intro x hx
      simp only [List.mem_map] at hx
      obtain ⟨i, _, hi⟩ := hx
      omega
    · have hinj : Function.Injective (fun i : ℕ => (i : ℤ)) := by
        intro a b h
        simp only [Int.natCast_inj] at h
        exact h
      exact List.Nodup.map hinj (List.nodup_range nsnp)
    · intro x hx
      exact absurd hx (List.not_mem_nil x)
  have hres := searchLoop_inv O prune mtry fuel _ hinit (by norm_num)
  exact ⟨hres.2, hres.1.1⟩

end LibHLA
